import Mathlib

/-
Verification of the spec-document patch pipeline and archive/version helpers of
the ROS2-Universal-Porting-Framework repository.

Documents are modelled as lists of characters (`List Char`).  The Python
functions of `pipeline/scripts/fix_specs.py` operate on strings with the `re`
module; every regular expression used there is deterministic (each quantifier
either cannot backtrack or its backtracking provably never changes the match),
so each transform is embedded as a structurally recursive scanner over the
character list, faithful to the leftmost, non-overlapping match semantics of
`re.sub` / `re.search` with `re.MULTILINE` (and `re.DOTALL` where used).

Python `\s` / `str.strip` whitespace is modelled by the ASCII whitespace set,
and `\w` by ASCII alphanumerics plus underscore; the documents concerned are
ASCII RPM spec files.
-/

set_option maxRecDepth 20000

namespace RosPorting

/-- Python whitespace (`\s`, `str.strip`), restricted to ASCII. -/
def isWs (c : Char) : Bool :=
  c = ' ' || c = '\t' || c = '\n' || c = '\r' || c = '\x0b' || c = '\x0c'

/-- Python word character (`\w`, used for `\b` boundaries), restricted to ASCII. -/
def isWordChar (c : Char) : Bool :=
  c.isAlphanum || c = '_'

/-- Python `str.lstrip("\n")`. -/
def lstripNl (t : List Char) : List Char := t.dropWhile (fun c => c = '\n')

/-- Python `str.rstrip()` (strip trailing whitespace). -/
def pyRstrip (t : List Char) : List Char := (t.reverse.dropWhile isWs).reverse

/-- Python `str.strip()`. -/
def pyStrip (t : List Char) : List Char := (t.dropWhile isWs).reverse.dropWhile isWs |>.reverse

/-- Python `str.splitlines(keepends=True)`, for documents using only `\n`
line terminators: each line keeps its trailing newline; a final fragment
without a newline is kept as-is; the empty string yields no lines. -/
def splitKeep (t : List Char) : List (List Char) :=
  t.foldr
    (fun c acc =>
      if c = '\n' then ['\n'] :: acc
      else
        match acc with
        | [] => [[c]]
        | l :: ls => (c :: l) :: ls)
    []

/-- Python `str.splitlines()` (newline terminators removed). -/
def splitNoKeep (t : List Char) : List (List Char) :=
  (splitKeep t).map (fun l => if l.getLast? = some '\n' then l.dropLast else l)

/-- Concatenate a list of lines (Python `"".join`). -/
def joinL (ls : List (List Char)) : List Char := ls.foldr (fun l acc => l ++ acc) []

/-- Python `str.split()`: split on whitespace runs, dropping empty fields. -/
def splitWs (t : List Char) : List (List Char) :=
  (t.foldr
    (fun c acc =>
      if isWs c then [] :: acc
      else
        match acc with
        | [] => [[c]]
        | w :: ws_ => (c :: w) :: ws_)
    [[]]).filter (fun w => !w.isEmpty)

/--
Generic leftmost line-start scanner: `scanGo p st s` walks `s`; `st` records
whether the current position is a line start (string start, or just after a
newline).  At every line start it tests the anchor predicate `p` on the whole
remaining suffix; at the first hit it returns the consumed part and the
remaining suffix.  This is `re.search` for a pattern anchored with `^` in
MULTILINE mode whose body is decided by the predicate on the suffix.
-/
def scanGo (p : List Char → Bool) : Bool → List Char → Option (List Char × List Char)
  | st, [] => if st && p [] then some ([], []) else none
  | st, c :: cs =>
    if st && p (c :: cs) then some ([], c :: cs)
    else (scanGo p (c = '\n') cs).map (fun ab => (c :: ab.1, ab.2))

/-- Leftmost line-start search from the beginning of the document. -/
def scanSplit (p : List Char → Bool) (t : List Char) : Option (List Char × List Char) :=
  scanGo p true t

/-- Python substring containment (`pat in s`). -/
def containsSub (pat : List Char) : List Char → Bool
  | [] => pat.isPrefixOf []
  | c :: cs => pat.isPrefixOf (c :: cs) || containsSub pat cs

/-- Positions the scanner tests: the start of the string (when the state is
`true`), or any position just after a newline. -/
def okPre (st : Bool) (u : List Char) : Prop :=
  (u = [] ∧ st = true) ∨ u.getLast? = some '\n'

theorem okPre_nil : okPre true [] := Or.inl ⟨rfl, rfl⟩

theorem okPre_snoc_nl (st : Bool) (X : List Char) : okPre st (X ++ ['\n']) :=
  Or.inr (List.getLast?_concat X)

theorem okPre_cons_tail {st : Bool} {c : Char} {u : List Char} (h : okPre st (c :: u)) :
    (u = [] ∧ c = '\n') ∨ u.getLast? = some '\n' := by
  rcases h with ⟨h1, _⟩ | h2
  · exact absurd h1 (List.cons_ne_nil c u)
  · cases u with
    | nil =>
      simp only [List.getLast?_singleton, Option.some.injEq] at h2
      exact Or.inl ⟨rfl, h2⟩
    | cons d ds =>
      rw [List.getLast?_cons_cons] at h2
      exact Or.inr h2

theorem okPre_of_tail {st : Bool} {c : Char} {u : List Char} (h : okPre st (c :: u)) :
    okPre (c = '\n') u := by
  rcases okPre_cons_tail h with ⟨rfl, hc⟩ | h2
  · exact Or.inl ⟨rfl, by simp [hc]⟩
  · exact Or.inr h2

theorem okPre_cons_of {c : Char} {u : List Char} {st' : Bool}
    (h : okPre (c = '\n') u) : okPre st' (c :: u) := by
  rcases h with ⟨rfl, h2⟩ | h2
  · have : c = '\n' := by simpa using h2
    subst this
    exact Or.inr rfl
  · right
    cases u with
    | nil => simp at h2
    | cons d ds => rw [List.getLast?_cons_cons]; exact h2

theorem okPre_extend {st : Bool} {u₂ : List Char} (X : List Char) (h : okPre true u₂) :
    okPre st (X ++ '\n' :: u₂) := by
  rcases h with ⟨rfl, _⟩ | h2
  · exact okPre_snoc_nl st X
  · right
    have hne : ('\n' :: u₂ : List Char) ≠ [] := List.cons_ne_nil _ _
    rw [List.getLast?_append_of_ne_nil _ hne]
    cases u₂ with
    | nil => simp at h2
    | cons d ds => rw [List.getLast?_cons_cons]; exact h2

/-- The scanner splits its input and the hit satisfies the anchor. -/
theorem scan_shape (p : List Char → Bool) :
    ∀ (s : List Char) (st : Bool) (a b : List Char),
      scanGo p st s = some (a, b) → s = a ++ b ∧ p b = true := by
  intro s
  induction s with
  | nil =>
    intro st a b h
    unfold scanGo at h
    split at h
    · simp only [Option.some.injEq, Prod.mk.injEq] at h
      obtain ⟨rfl, rfl⟩ := h
      simp_all
    · simp at h
  | cons c cs ih =>
    intro st a b h
    unfold scanGo at h
    split at h
    · simp only [Option.some.injEq, Prod.mk.injEq] at h
      obtain ⟨rfl, rfl⟩ := h
      refine ⟨rfl, ?_⟩
      simp_all
    · cases ho : scanGo p (c = '\n') cs with
      | none => rw [ho] at h; simp at h
      | some ab =>
        obtain ⟨a', b'⟩ := ab
        rw [ho] at h
        simp only [Option.map_some', Option.some.injEq, Prod.mk.injEq] at h
        obtain ⟨rfl, rfl⟩ := h
        obtain ⟨h1, h2⟩ := ih (c = '\n') a' b' ho
        exact ⟨by rw [List.cons_append, ← h1], h2⟩

/-- The consumed part of a scanner hit ends at a line start. -/
theorem scan_okPre (p : List Char → Bool) :
    ∀ (s : List Char) (st : Bool) (a b : List Char),
      scanGo p st s = some (a, b) → okPre st a := by
  intro s
  induction s with
  | nil =>
    intro st a b h
    unfold scanGo at h
    split at h
    · simp only [Option.some.injEq, Prod.mk.injEq] at h
      obtain ⟨rfl, rfl⟩ := h
      rename_i hcond
      exact Or.inl ⟨rfl, by simp_all⟩
    · simp at h
  | cons c cs ih =>
    intro st a b h
    unfold scanGo at h
    split at h
    · simp only [Option.some.injEq, Prod.mk.injEq] at h
      obtain ⟨rfl, rfl⟩ := h
      rename_i hcond
      exact Or.inl ⟨rfl, by simp_all⟩
    · cases ho : scanGo p (c = '\n') cs with
      | none => rw [ho] at h; simp at h
      | some ab =>
        obtain ⟨a', b'⟩ := ab
        rw [ho] at h
        simp only [Option.map_some', Option.some.injEq, Prod.mk.injEq] at h
        obtain ⟨rfl, rfl⟩ := h
        exact okPre_cons_of (ih (c = '\n') a' b' ho)

/-- A failed scan means the anchor fails at every tested position. -/
theorem scan_none_imp (p : List Char → Bool) :
    ∀ (s : List Char) (st : Bool), scanGo p st s = none →
      ∀ u v, s = u ++ v → okPre st u → p v = false := by
  intro s
  induction s with
  | nil =>
    intro st h u v hdec hok
    have hu : u = [] := by
      cases u with
      | nil => rfl
      | cons x xs => simp at hdec
    subst hu
    simp only [List.nil_append] at hdec
    subst hdec
    rcases hok with ⟨_, hst⟩ | h2
    · unfold scanGo at h
      split at h
      · simp at h
      · rename_i hcond
        simp [hst] at hcond
        simpa using hcond
    · simp at h2
  | cons c cs ih =>
    intro st h u v hdec hok
    unfold scanGo at h
    split at h
    · simp at h
    · rename_i hcond
      have hrec : scanGo p (c = '\n') cs = none := by
        cases ho : scanGo p (c = '\n') cs with
        | none => rfl
        | some ab => rw [ho] at h; simp at h
      cases u with
      | nil =>
        simp only [List.nil_append] at hdec
        subst hdec
        rcases hok with ⟨_, hst⟩ | h2
        · subst hst
          simpa using hcond
        · simp at h2
      | cons x xs =>
        simp only [List.cons_append, List.cons.injEq] at hdec
        obtain ⟨rfl, hdec2⟩ := hdec
        exact ih (c = '\n') hrec xs v hdec2 (okPre_of_tail hok)

/-- If the anchor fails at every tested position the scan fails. -/
theorem scan_none_of (p : List Char → Bool) :
    ∀ (s : List Char) (st : Bool),
      (∀ u v, s = u ++ v → okPre st u → p v = false) → scanGo p st s = none := by
  intro s
  induction s with
  | nil =>
    intro st hall
    unfold scanGo
    split
    · rename_i hcond
      simp only [Bool.and_eq_true] at hcond
      have := hall [] [] rfl (Or.inl ⟨rfl, hcond.1⟩)
      simp [this] at hcond
    · rfl
  | cons c cs ih =>
    intro st hall
    unfold scanGo
    split
    · rename_i hcond
      simp only [Bool.and_eq_true] at hcond
      have := hall [] (c :: cs) rfl (Or.inl ⟨rfl, hcond.1⟩)
      simp [this] at hcond
    · rw [ih (c = '\n') ?_]
      · rfl
      · intro u v hdec hok
        exact hall (c :: u) v (by rw [hdec, List.cons_append]) (okPre_cons_of hok)

/-- The scanner returns the first hit: every strictly earlier tested
position fails the anchor. -/
theorem scan_first (p : List Char → Bool) :
    ∀ (s : List Char) (st : Bool) (a b : List Char),
      scanGo p st s = some (a, b) →
      ∀ u v, s = u ++ v → okPre st u → u.length < a.length → p v = false := by
  intro s
  induction s with
  | nil =>
    intro st a b h u v hdec hok hlen
    unfold scanGo at h
    split at h
    · simp only [Option.some.injEq, Prod.mk.injEq] at h
      obtain ⟨rfl, rfl⟩ := h
      simp at hlen
    · simp at h
  | cons c cs ih =>
    intro st a b h u v hdec hok hlen
    unfold scanGo at h
    split at h
    · simp only [Option.some.injEq, Prod.mk.injEq] at h
      obtain ⟨rfl, rfl⟩ := h
      simp at hlen
    · rename_i hcond
      cases ho : scanGo p (c = '\n') cs with
      | none => rw [ho] at h; simp at h
      | some ab =>
        obtain ⟨a', b'⟩ := ab
        rw [ho] at h
        simp only [Option.map_some', Option.some.injEq, Prod.mk.injEq] at h
        obtain ⟨rfl, rfl⟩ := h
        cases u with
        | nil =>
          simp only [List.nil_append] at hdec
          subst hdec
          rcases hok with ⟨_, hst⟩ | h2
          · subst hst
            simpa using hcond
          · simp at h2
        | cons x xs =>
          simp only [List.cons_append, List.cons.injEq] at hdec
          obtain ⟨rfl, hdec2⟩ := hdec
          have hlen' : xs.length < a'.length := by
            simpa using hlen
          exact ih (c = '\n') a' b' ho xs v hdec2 (okPre_of_tail hok) hlen'

/-- Characterization of a scanner hit: the given position is tested, the
anchor holds there, and every strictly earlier tested position fails. -/
theorem scan_eq_some_of (p : List Char → Bool) {s u v : List Char} {st : Bool}
    (hdec : s = u ++ v) (hok : okPre st u) (hp : p v = true)
    (hmin : ∀ u' v', s = u' ++ v' → okPre st u' → u'.length < u.length → p v' = false) :
    scanGo p st s = some (u, v) := by
  cases hsc : scanGo p st s with
  | none =>
    have := scan_none_imp p s st hsc u v hdec hok
    simp [this] at hp
  | some ab =>
    obtain ⟨a, b⟩ := ab
    obtain ⟨hs1, hs2⟩ := scan_shape p s st a b hsc
    have hoka := scan_okPre p s st a b hsc
    have h1 : ¬ a.length < u.length := by
      intro hlt
      have := hmin a b hs1 hoka hlt
      simp [this] at hs2
    have h2 : ¬ u.length < a.length := by
      intro hlt
      have := scan_first p s st a b hsc u v hdec hok hlt
      simp [this] at hp
    have hlen : u.length = a.length := by omega
    have heq : u ++ v = a ++ b := by rw [← hdec, hs1]
    obtain ⟨rfl, rfl⟩ := List.append_inj heq hlen
    rfl

/-- Prefix tests ignore a continuation headed by a character that does not
occur in the pattern. -/
theorem isPrefixOf_append_not_mem {pat : List Char} {c : Char} (h : c ∉ pat) :
    ∀ (u w : List Char), pat.isPrefixOf (u ++ c :: w) = pat.isPrefixOf u := by
  induction pat with
  | nil => intro u w; simp [List.isPrefixOf]
  | cons p ps ih =>
    intro u w
    cases u with
    | nil =>
      simp only [List.nil_append, List.isPrefixOf]
      have hpc : (p == c) = false := by
        simp only [beq_eq_false_iff_ne]
        intro he
        exact h (he ▸ List.mem_cons_self p ps)
      simp [hpc]
    | cons x xs =>
      simp only [List.cons_append, List.isPrefixOf, List.append_eq]
      have : c ∉ ps := fun hm => h (List.mem_cons_of_mem p hm)
      rw [ih this xs w]

theorem isPrefixOf_self_append (pat r : List Char) : pat.isPrefixOf (pat ++ r) = true :=
  List.isPrefixOf_iff_prefix.mpr (List.prefix_append pat r)

/-- No anchor hit at any tested position of `t`. -/
def NoHit (p : List Char → Bool) (t : List Char) : Prop :=
  ∀ u v, t = u ++ v → okPre true u → p v = false

theorem noHit_iff_scan (p : List Char → Bool) (t : List Char) :
    NoHit p t ↔ scanSplit p t = none := by
  constructor
  · intro h
    exact scan_none_of p t true h
  · intro h u v hdec hok
    exact scan_none_imp p t true h u v hdec hok

theorem noHit_nil {p : List Char → Bool} (h : p [] = false) : NoHit p [] := by
  intro u v hdec _
  have hu : u = [] := by
    cases u with
    | nil => rfl
    | cons x xs => simp at hdec
  subst hu
  simp only [List.nil_append] at hdec
  subst hdec
  exact h

theorem noHit_noNl {p : List Char → Bool} {L : List Char} (hL : '\n' ∉ L)
    (h : p L = false) : NoHit p L := by
  intro u v hdec hok
  rcases hok with ⟨rfl, _⟩ | h2
  · simp only [List.nil_append] at hdec; subst hdec; exact h
  · exfalso
    have hne : u ≠ [] := by
      intro hu; subst hu; simp at h2
    have hmem : '\n' ∈ u := by
      rw [List.getLast?_eq_getLast u hne] at h2
      have h3 : u.getLast hne = '\n' := by simpa using h2
      rw [← h3]
      exact List.getLast_mem hne
    exact hL (hdec ▸ List.mem_append_left v hmem)

theorem noHit_glue {p : List Char → Bool} {A B : List Char}
    (hnl : ∀ v w, p (v ++ '\n' :: w) = p v) (hnil : p [] = false)
    (hA : NoHit p A) (hB : NoHit p B) : NoHit p (A ++ '\n' :: B) := by
  intro u v hdec hok
  rcases List.append_eq_append_iff.mp hdec with ⟨a', ha1, ha2⟩ | ⟨c', hc1, hc2⟩
  · -- u = A ++ a', '\n' :: B = a' ++ v
    cases a' with
    | nil =>
      simp only [List.nil_append] at ha2
      subst ha2
      have := hnl [] B
      simpa [hnil] using this
    | cons x a₂ =>
      simp only [List.cons_append, List.cons.injEq] at ha2
      obtain ⟨rfl, hB2⟩ := ha2
      subst ha1
      have hok₂ : okPre true a₂ := by
        rcases hok with ⟨he, _⟩ | h2
        · simp at he
        · cases a₂ with
          | nil => exact okPre_nil
          | cons d ds =>
            right
            rw [List.getLast?_append_of_ne_nil _ (List.cons_ne_nil _ _)] at h2
            rw [List.getLast?_cons_cons] at h2
            exact h2
      exact hB a₂ v hB2 hok₂
  · -- A = u ++ c', v = c' ++ '\n' :: B
    subst hc2
    rw [hnl c' B]
    exact hA u c' hc1 hok

theorem noHit_take {p : List Char → Bool} {A rest : List Char}
    (hnl : ∀ v w, p (v ++ '\n' :: w) = p v)
    (h : NoHit p (A ++ rest)) (hr : rest = [] ∨ ∃ r', rest = '\n' :: r') : NoHit p A := by
  intro u v hdec hok
  have := h u (v ++ rest) (by rw [hdec, List.append_assoc]) hok
  rcases hr with rfl | ⟨r', rfl⟩
  · simpa using this
  · rwa [hnl v r'] at this

theorem noHit_take_ws {p : List Char → Bool} {A w : List Char}
    (hws : ∀ v c w', isWs c = true → p (v ++ c :: w') = p v)
    (h : NoHit p (A ++ w)) (hw : ∀ c ∈ w, isWs c = true) : NoHit p A := by
  intro u v hdec hok
  have := h u (v ++ w) (by rw [hdec, List.append_assoc]) hok
  cases w with
  | nil => simpa using this
  | cons c w' => rwa [hws v c w' (hw c (List.mem_cons_self c w'))] at this

theorem noHit_suffix {p : List Char → Bool} {u v : List Char}
    (h : NoHit p (u ++ v)) (hok : okPre true u) : NoHit p v := by
  intro u' v' hdec hok'
  refine h (u ++ u') v' (by rw [hdec, List.append_assoc]) ?_
  rcases hok' with ⟨rfl, _⟩ | h2
  · simpa using hok
  · right
    rw [List.getLast?_append_of_ne_nil _ ?_]
    · exact h2
    · intro he; subst he; simp at h2

theorem okPre_append {u v : List Char} (hu : okPre true u) (hv : okPre true v) :
    okPre true (u ++ v) := by
  rcases hv with ⟨rfl, _⟩ | h2
  · simpa using hu
  · right
    rw [List.getLast?_append_of_ne_nil _ ?_]
    · exact h2
    · intro he; subst he; simp at h2

/-- Line-splitting of a decomposition whose first line is newline-free. -/
theorem decomp_line {L t u v : List Char} (hL : '\n' ∉ L)
    (hdec : L ++ '\n' :: t = u ++ v) (hok : okPre true u) :
    (u = [] ∧ v = L ++ '\n' :: t) ∨
      ∃ u₂, u = L ++ '\n' :: u₂ ∧ t = u₂ ++ v ∧ okPre true u₂ := by
  induction u generalizing L with
  | nil =>
    left
    exact ⟨rfl, by simpa using hdec.symm⟩
  | cons x u' ih =>
    cases L with
    | nil =>
      simp only [List.nil_append, List.cons_append, List.cons.injEq] at hdec
      obtain ⟨rfl, hdec2⟩ := hdec
      right
      refine ⟨u', rfl, hdec2, ?_⟩
      rcases okPre_cons_tail hok with ⟨rfl, _⟩ | h2
      · exact okPre_nil
      · exact Or.inr h2
    | cons y L' =>
      simp only [List.cons_append, List.cons.injEq] at hdec
      obtain ⟨rfl, hdec2⟩ := hdec
      have hyn : y ≠ '\n' := fun he => hL (he ▸ List.mem_cons_self y L')
      have hu' : u' ≠ [] := by
        intro he
        subst he
        rcases okPre_cons_tail hok with ⟨_, h2⟩ | h2
        · exact hyn h2
        · simp at h2
      have hok' : okPre true u' := by
        rcases okPre_cons_tail hok with ⟨he, _⟩ | h2
        · exact absurd he hu'
        · exact Or.inr h2
      have hL' : '\n' ∉ L' := fun hm => hL (List.mem_cons_of_mem y hm)
      rcases ih hL' hdec2 hok' with ⟨he, _⟩ | ⟨u₂, hu, ht, hok₂⟩
      · exact absurd he hu'
      · right
        exact ⟨u₂, by rw [hu, List.cons_append], ht, hok₂⟩

/-- Prefix tests ignore continuations once the tested part is long enough. -/
theorem isPrefixOf_append_of_le {pat : List Char} :
    ∀ {u : List Char}, pat.length ≤ u.length →
      ∀ (r : List Char), pat.isPrefixOf (u ++ r) = pat.isPrefixOf u := by
  induction pat with
  | nil => intro u _ r; simp [List.isPrefixOf]
  | cons p ps ih =>
    intro u hlen r
    cases u with
    | nil => simp at hlen
    | cons x xs =>
      simp only [List.cons_append, List.isPrefixOf, List.append_eq]
      rw [ih (by simpa using hlen) r]

/-- Heads of `dropWhile` results falsify the predicate. -/
theorem dropWhile_head_false {p : Char → Bool} :
    ∀ {l : List Char} {d : Char} {u : List Char}, l.dropWhile p = d :: u → p d = false := by
  intro l
  induction l with
  | nil => intro d u h; simp at h
  | cons c l' ih =>
    intro d u h
    rw [List.dropWhile_cons] at h
    split at h
    · exact ih h
    · simp only [List.cons.injEq] at h
      obtain ⟨rfl, _⟩ := h
      simp_all

theorem dropWhile_append_nonnil {p : Char → Bool} :
    ∀ {l₁ : List Char} (l₂ : List Char), (∃ c ∈ l₁, p c = false) →
      (l₁ ++ l₂).dropWhile p = l₁.dropWhile p ++ l₂ := by
  intro l₁
  induction l₁ with
  | nil => intro l₂ h; simp at h
  | cons c l' ih =>
    intro l₂ h
    rw [List.cons_append, List.dropWhile_cons, List.dropWhile_cons]
    split
    · rename_i hc
      refine ih l₂ ?_
      rcases h with ⟨d, hd, hdp⟩
      rcases List.mem_cons.mp hd with rfl | hd'
      · simp [hdp] at hc
      · exact ⟨d, hd', hdp⟩
    · rfl

/-- `str.rstrip()` splits the string into kept part and whitespace tail. -/
theorem pyRstrip_decomp (t : List Char) :
    t = pyRstrip t ++ (t.reverse.takeWhile isWs).reverse ∧
      ∀ c ∈ (t.reverse.takeWhile isWs).reverse, isWs c = true := by
  constructor
  · conv_lhs => rw [← List.reverse_reverse t,
      ← List.takeWhile_append_dropWhile isWs t.reverse]
    rw [List.reverse_append]
    rfl
  · intro c hc
    exact List.mem_takeWhile_imp (List.mem_reverse.mp hc)

theorem pyRstrip_append_left {t : List Char} (X : List Char)
    (h : ∃ c ∈ t, isWs c = false) : pyRstrip (X ++ t) = X ++ pyRstrip t := by
  unfold pyRstrip
  rw [List.reverse_append]
  rw [dropWhile_append_nonnil X.reverse ?_]
  · rw [List.reverse_append, List.reverse_reverse]
  · rcases h with ⟨c, hc, hcp⟩
    exact ⟨c, List.mem_reverse.mpr hc, hcp⟩

/- ----------------------------------------------------------------------
fix_specs.py: the eight transform steps.
---------------------------------------------------------------------- -/

def bcondTests : List Char := ("%bcond_without tests").toList

def bcondWeak : List Char := ("%bcond_without weak_deps").toList

def bcondHead : List Char := ("%bcond_without").toList

/-- `ensure_bconds`: prepend the missing `%bcond_without` switch lines. -/
def ensure_bconds (t : List Char) : List Char :=
  let existing := ((splitNoKeep t).map pyStrip).filter (fun l => bcondHead.isPrefixOf l)
  let missing := [bcondTests, bcondWeak].filter (fun l => !existing.contains l)
  if missing.isEmpty then t
  else List.intercalate ['\n'] missing ++ '\n' :: '\n' :: lstripNl t

/-- Anchor of `^%(?:global|define)\s+debug_package\b` at the current suffix. -/
def debugAnchor (s : List Char) : Bool :=
  (("%global").toList.isPrefixOf s || ("%define").toList.isPrefixOf s) &&
  (match s.drop 7 with
   | [] => false
   | c :: _ =>
     isWs c &&
     (let r2 := (s.drop 7).dropWhile isWs
      ("debug_package").toList.isPrefixOf r2 &&
      (match r2.drop 13 with
       | [] => true
       | d :: _ => !isWordChar d)))

def hasDebugDirective (t : List Char) : Bool := (scanSplit debugAnchor t).isSome

def debugLine : List Char := ("%global debug_package %{nil}\n").toList

/-- Index of the last line whose `lstrip()` starts with `%bcond_without`. -/
def lastBcondIdx (ls : List (List Char)) : Option Nat :=
  (List.range ls.length).foldl
    (fun acc i => if bcondHead.isPrefixOf ((ls.getD i []).dropWhile isWs) then some i else acc)
    none

/-- `ensure_debug_disabled`: insert `%global debug_package %{nil}` unless present. -/
def ensure_debug_disabled (t : List Char) : List Char :=
  if hasDebugDirective t then t
  else
    let lines := splitKeep t
    match lastBcondIdx lines with
    | none => debugLine ++ '\n' :: lstripNl t
    | some i =>
      let blanks := ((lines.drop (i + 1)).takeWhile (fun l => (pyStrip l).isEmpty)).length
      let ip := i + 1 + blanks
      joinL (lines.take ip ++ [debugLine, ['\n']] ++ lines.drop ip)

/-- Scanner states shared by the substitution machines below.  `dropN k`
consumes `k` further characters silently, `ws` / `toEol` consume the
`\s*` run resp. the rest of the matched line. -/
inductive MSt where
  | scan (atStart : Bool)
  | dropN (k : Nat)
  | ws
  | toEol
deriving Repr, DecidableEq

def namePat : List Char := ("Name:").toList

/--
`re.sub(r"^Name:\s*.*$", canon, text)` in MULTILINE mode.  At a line start
with a `Name:` prefix the match extends over the maximal `\s*` run (which may
cross newlines) and then to the end of the line holding the first
non-whitespace character; the whole match is replaced by `canon` and the
terminating newline (not part of the match) is kept.
-/
def subNameGo (canon : List Char) : MSt → List Char → List Char
  | _, [] => []
  | MSt.scan st, c :: cs =>
    if st && namePat.isPrefixOf (c :: cs) then canon ++ subNameGo canon (MSt.dropN 4) cs
    else c :: subNameGo canon (MSt.scan (c = '\n')) cs
  | MSt.dropN k, _ :: cs =>
    if k ≤ 1 then subNameGo canon MSt.ws cs else subNameGo canon (MSt.dropN (k - 1)) cs
  | MSt.ws, c :: cs =>
    if isWs c then subNameGo canon MSt.ws cs else subNameGo canon MSt.toEol cs
  | MSt.toEol, c :: cs =>
    if c = '\n' then '\n' :: subNameGo canon (MSt.scan true) cs
    else subNameGo canon MSt.toEol cs

def nameAnchor (s : List Char) : Bool := namePat.isPrefixOf s

def hasNameMatch (t : List Char) : Bool := (scanSplit nameAnchor t).isSome

/-- The replacement line `f"Name:           {rpm_name}"` (11 spaces). -/
def canonNameLine (rpm : List Char) : List Char := ("Name:           ").toList ++ rpm

/-- `fix_name`: rewrite every `Name:` line, or prepend one if none matches. -/
def fix_name (rpm : List Char) (t : List Char) : List Char :=
  if hasNameMatch t then subNameGo (canonNameLine rpm) (MSt.scan true) t
  else canonNameLine rpm ++ '\n' :: t

def srcHdr0 : List Char := ("Source0:").toList

def srcHdr : List Char := ("Source:").toList

def srcAnchor (s : List Char) : Bool := srcHdr0.isPrefixOf s || srcHdr.isPrefixOf s

def hasSrcMatch (t : List Char) : Bool := (scanSplit srcAnchor t).isSome

def srcTempl : List Char := ("%{name}_%{version}.orig.tar.gz").toList

/--
`re.sub(r"^(Source0?:\s*).*$", r"\1" + template, text)`: the captured group
(header keyword plus the maximal `\s*` run) is kept and re-emitted, the rest
of the matched region is replaced by the template.
-/
def subSrcGo : MSt → List Char → List Char
  | MSt.ws, [] => srcTempl
  | _, [] => []
  | MSt.scan st, c :: cs =>
    if st && srcHdr0.isPrefixOf (c :: cs) then srcHdr0 ++ subSrcGo (MSt.dropN 7) cs
    else if st && srcHdr.isPrefixOf (c :: cs) then srcHdr ++ subSrcGo (MSt.dropN 6) cs
    else c :: subSrcGo (MSt.scan (c = '\n')) cs
  | MSt.dropN k, _ :: cs =>
    if k ≤ 1 then subSrcGo MSt.ws cs else subSrcGo (MSt.dropN (k - 1)) cs
  | MSt.ws, c :: cs =>
    if isWs c then c :: subSrcGo MSt.ws cs else srcTempl ++ subSrcGo MSt.toEol cs
  | MSt.toEol, c :: cs =>
    if c = '\n' then '\n' :: subSrcGo (MSt.scan true) cs
    else subSrcGo MSt.toEol cs

def licHdr : List Char := ("License:").toList

def licAnchor (s : List Char) : Bool := licHdr.isPrefixOf s

def srcNewLine : List Char := ("Source0: %{name}_%{version}.orig.tar.gz").toList

/-- `fix_source0`: rewrite every `Source:`/`Source0:` line; otherwise insert
the canonical line after the first `License:` line (at the end of the
`^(License:\s*.*)$` match) or append it at the end of the document. -/
def fix_source0 (t : List Char) : List Char :=
  if hasSrcMatch t then subSrcGo (MSt.scan true) t
  else
    match scanSplit licAnchor t with
    | some (pre, suf) =>
      let r := suf.drop 8
      let wsRun := r.takeWhile isWs
      let body := (r.dropWhile isWs).takeWhile (fun c => c ≠ '\n')
      let rest := (r.dropWhile isWs).dropWhile (fun c => c ≠ '\n')
      pre ++ licHdr ++ wsRun ++ body ++ '\n' :: srcNewLine ++ rest
    | none => pyRstrip t ++ '\n' :: srcNewLine ++ ['\n']

/-- States of the cmake-flag substitution machine. -/
inductive CSt where
  | scan
  | dropN (k : Nat)
  | sep
  | sepWs
  | vopen
  | vrun
deriving Repr, DecidableEq

/-- Whether `flag(?:\s+|=)"?[^\s"]*"?` matches at the start of `s`. -/
def cmakeMatchAt (flag : List Char) (s : List Char) : Bool :=
  flag.isPrefixOf s &&
  (match s.drop flag.length with
   | [] => false
   | c :: _ => isWs c || c = '=')

/-- `re.sub(flag + r"(?:\s+|=)\"?[^\s\"]*\"?", rep, text)` at every position. -/
def subFlagGo (flag rep : List Char) : CSt → List Char → List Char
  | _, [] => []
  | CSt.scan, c :: cs =>
    if cmakeMatchAt flag (c :: cs) then rep ++ subFlagGo flag rep (CSt.dropN (flag.length - 1)) cs
    else c :: subFlagGo flag rep CSt.scan cs
  | CSt.dropN k, _ :: cs =>
    if k ≤ 1 then subFlagGo flag rep CSt.sep cs
    else subFlagGo flag rep (CSt.dropN (k - 1)) cs
  | CSt.sep, c :: cs =>
    if c = '=' then subFlagGo flag rep CSt.vopen cs
    else if isWs c then subFlagGo flag rep CSt.sepWs cs
    else c :: subFlagGo flag rep CSt.scan cs
  | CSt.sepWs, c :: cs =>
    if isWs c then subFlagGo flag rep CSt.sepWs cs
    else subFlagGo flag rep CSt.vrun cs
  | CSt.vopen, c :: cs =>
    if isWs c then c :: subFlagGo flag rep CSt.scan cs
    else subFlagGo flag rep CSt.vrun cs
  | CSt.vrun, c :: cs =>
    if c = '"' then subFlagGo flag rep CSt.scan cs
    else if isWs c then c :: subFlagGo flag rep CSt.scan cs
    else subFlagGo flag rep CSt.vrun cs

def cmakeFlag1 : List Char := ("-DCMAKE_INSTALL_PREFIX").toList

def cmakeFlag2 : List Char := ("-DAMENT_PREFIX_PATH").toList

def cmakeFlag3 : List Char := ("-DCMAKE_PREFIX_PATH").toList

/-- `fix_cmake_prefixes`: canonicalize the three prefix-bearing cmake flags. -/
def fix_cmake_prefixes (rp : List Char) (t : List Char) : List Char :=
  let quote : List Char := ['"']
  let t1 := subFlagGo cmakeFlag1 (cmakeFlag1 ++ '=' :: quote ++ rp ++ quote) CSt.scan t
  let t2 := subFlagGo cmakeFlag2 (cmakeFlag2 ++ '=' :: quote ++ rp ++ quote) CSt.scan t1
  subFlagGo cmakeFlag3 (cmakeFlag3 ++ '=' :: quote ++ rp ++ quote) CSt.scan t2

/-- States of the `--prefix` value substitution machine. -/
inductive PSt where
  | scan
  | dropN (k : Nat)
  | psep
  | psepWs
  | pval
  | pskipQ
  | pskipNW
deriving Repr, DecidableEq

def prefFlag : List Char := ("--prefix").toList

/-- Whether `(--prefix(?:\s+|=))("[^"]*"|\S+)` matches at the start of `s`. -/
def prefMatchAt (s : List Char) : Bool :=
  prefFlag.isPrefixOf s &&
  (match s.drop 8 with
   | [] => false
   | c :: cs =>
     if c = '=' then
       match cs with
       | [] => false
       | d :: _ => !isWs d
     else isWs c && !((c :: cs).dropWhile isWs).isEmpty)

/-- Value replacement `"{ros_prefix}"`. -/
def prefRep (rp : List Char) : List Char := '"' :: rp ++ ['"']

/-- `re.sub(r"(--prefix(?:\s+|=))(\"[^\"]*\"|\S+)", r"\1" + rep, line)`.
At the start of the value alternation `("[^"]*"|\S+)` the replacement is
emitted and the matched value is skipped: through the closing quote if the
value opens with a quote that is closed later, else to the end of the
maximal non-whitespace run. -/
def subPrefGo (rp : List Char) : PSt → List Char → List Char
  | _, [] => []
  | PSt.scan, c :: cs =>
    if prefMatchAt (c :: cs) then prefFlag ++ subPrefGo rp (PSt.dropN 7) cs
    else c :: subPrefGo rp PSt.scan cs
  | PSt.dropN k, _ :: cs =>
    if k ≤ 1 then subPrefGo rp PSt.psep cs else subPrefGo rp (PSt.dropN (k - 1)) cs
  | PSt.psep, c :: cs =>
    if c = '=' then '=' :: subPrefGo rp PSt.pval cs
    else if isWs c then c :: subPrefGo rp PSt.psepWs cs
    else c :: subPrefGo rp PSt.scan cs
  | PSt.psepWs, c :: cs =>
    if isWs c then c :: subPrefGo rp PSt.psepWs cs
    else if c = '"' then
      if cs.contains '"' then prefRep rp ++ subPrefGo rp PSt.pskipQ cs
      else prefRep rp ++ subPrefGo rp PSt.pskipNW cs
    else prefRep rp ++ subPrefGo rp PSt.pskipNW cs
  | PSt.pval, c :: cs =>
    if c = '"' then
      if cs.contains '"' then prefRep rp ++ subPrefGo rp PSt.pskipQ cs
      else prefRep rp ++ subPrefGo rp PSt.pskipNW cs
    else if isWs c then c :: subPrefGo rp PSt.scan cs
    else prefRep rp ++ subPrefGo rp PSt.pskipNW cs
  | PSt.pskipQ, c :: cs =>
    if c = '"' then subPrefGo rp PSt.scan cs else subPrefGo rp PSt.pskipQ cs
  | PSt.pskipNW, c :: cs =>
    if isWs c then c :: subPrefGo rp PSt.scan cs else subPrefGo rp PSt.pskipNW cs

def py3Pat : List Char := ("%py3_install").toList

/-- One line of `fix_py3_install` (the line keeps its trailing newline). -/
def py3Line (rp : List Char) (line : List Char) : List Char :=
  if !containsSub py3Pat line then line
  else if containsSub prefFlag line then subPrefGo rp PSt.scan line
  else
    let s := (line.reverse.dropWhile (fun c => c = '\n')).reverse
    let s2 :=
      if containsSub (("--").toList) s then s ++ (" --prefix \"").toList ++ rp ++ ['"']
      else s ++ (" -- --prefix \"").toList ++ rp ++ ['"']
    s2 ++ ['\n']

/-- `fix_py3_install`: adjust the `--prefix` of every `%py3_install` line. -/
def fix_py3_install (rp : List Char) (t : List Char) : List Char :=
  joinL ((splitKeep t).map (py3Line rp))

def marker : List Char := ("# BEGIN ros_pythonpath").toList

/-- The injected export block (marker comment, two exports, end marker). -/
def pyBlock (rp : List Char) : List Char :=
  ("# BEGIN ros_pythonpath\nexport ROS_PREFIX=\"").toList ++ rp ++
  ("\"\nexport PYTHONPATH=\"$ROS_PREFIX/lib64/python%{python3_version}/site-packages:$ROS_PREFIX/lib/python%{python3_version}/site-packages:${PYTHONPATH}\"\n# END ros_pythonpath\n").toList

/-- Anchor of `^%<section>\b[^\n]*\n` at the current suffix. -/
def secAnchor (sec : List Char) (s : List Char) : Bool :=
  sec.isPrefixOf s &&
  (match s.drop sec.length with
   | [] => false
   | c :: _ => !isWordChar c) &&
  !(((s.drop sec.length).dropWhile (fun c => c ≠ '\n')).isEmpty)

/-- Insert `block` plus a blank line right after the first matching section
header line (`m.end()` of the search). -/
def injectSec (sec block : List Char) (t : List Char) : List Char :=
  match scanSplit (secAnchor sec) t with
  | none => t
  | some (pre, suf) =>
    let r := suf.drop sec.length
    let hdrRest := r.takeWhile (fun c => c ≠ '\n')
    let rest := (r.dropWhile (fun c => c ≠ '\n')).drop 1
    pre ++ sec ++ hdrRest ++ '\n' :: block ++ '\n' :: rest

def secBuild : List Char := ("%build").toList

def secInstall : List Char := ("%install").toList

def secCheck : List Char := ("%check").toList

/-- `inject_ros_pythonpath`: guarded by the marker comment; inserts the export
block after the first `%build`, `%install` and `%check` header lines. -/
def inject_ros_pythonpath (rp : List Char) (t : List Char) : List Char :=
  if containsSub marker t then t
  else
    injectSec secCheck (pyBlock rp)
      (injectSec secInstall (pyBlock rp)
        (injectSec secBuild (pyBlock rp) t))

/-- Anchor of `^%files[^\n]*\n` (the header line must end with a newline). -/
def filesAnchor (s : List Char) : Bool :=
  ("%files").toList.isPrefixOf s &&
  !(((s.drop 6).dropWhile (fun c => c ≠ '\n')).isEmpty)

/-- Anchor of `^%changelog\b`. -/
def chlogAnchor (s : List Char) : Bool :=
  ("%changelog").toList.isPrefixOf s &&
  (match s.drop 10 with
   | [] => true
   | c :: _ => !isWordChar c)

/--
Leftmost match of `^%files[^\n]*\n.*?(?=^%changelog\b)` (MULTILINE, DOTALL),
returned as (text before the match, suffix at the lookahead position).
If the first `%files` header has no `%changelog` line start after it then no
later `%files` header has one either, so the regex has no match at all;
hence searching only from the first `%files` header is faithful.
-/
def findFilesBlock (t : List Char) : Option (List Char × List Char) :=
  match scanSplit filesAnchor t with
  | none => none
  | some (fpre, fsuf) =>
    let afterHdr := ((fsuf.drop 6).dropWhile (fun c => c ≠ '\n')).drop 1
    match scanSplit chlogAnchor afterHdr with
    | none => none
    | some (_, csuf) => some (fpre, csuf)

/-- `fix_files_section`: replace the primary files block, or insert a fresh
one before `%changelog`, or append one at the end of the document. -/
def fix_files_section (rp : List Char) (t : List Char) : List Char :=
  let newBlock := ("%files\n").toList ++ rp ++ ['\n']
  match findFilesBlock t with
  | some (fpre, csuf) => fpre ++ newBlock ++ csuf
  | none =>
    match scanSplit chlogAnchor t with
    | some (cpre, csuf) => cpre ++ newBlock ++ '\n' :: csuf
    | none => pyRstrip t ++ '\n' :: '\n' :: (newBlock ++ ['\n'])

/-- `patch_spec_text`: the full ordered pipeline. -/
def patch_spec_text (rpm rp : List Char) (t : List Char) : List Char :=
  fix_files_section rp
    (inject_ros_pythonpath rp
      (fix_py3_install rp
        (fix_cmake_prefixes rp
          (fix_source0
            (fix_name rpm
              (ensure_debug_disabled
                (ensure_bconds t)))))))

/-- The fixed arguments used by the concrete claims: package `foo_bar`,
distro `jazzy` (as in the `main` functions of the scripts). -/
def rpmName0 : List Char := ("ros-jazzy-foo-bar").toList

def rosPref0 : List Char := ("/opt/ros/jazzy").toList

/- Anchor stability: the anchors of fix_name / fix_source0 are prefix tests
for newline-free, whitespace-free patterns, so they ignore a continuation
that begins with a newline or a whitespace character. -/

theorem nameAnchor_nil : nameAnchor [] = false := by decide

theorem nameAnchor_nl (v w : List Char) : nameAnchor (v ++ '\n' :: w) = nameAnchor v :=
  isPrefixOf_append_not_mem (by decide) v w

theorem nameAnchor_ws {c : Char} (hc : isWs c = true) (v w : List Char) :
    nameAnchor (v ++ c :: w) = nameAnchor v := by
  refine isPrefixOf_append_not_mem ?_ v w
  intro hm
  have hall : ∀ d ∈ namePat, isWs d = false := by decide
  simp [hall c hm] at hc

theorem srcAnchor_nil : srcAnchor [] = false := by decide

theorem srcAnchor_nl (v w : List Char) : srcAnchor (v ++ '\n' :: w) = srcAnchor v := by
  unfold srcAnchor
  rw [isPrefixOf_append_not_mem (by decide) v w, isPrefixOf_append_not_mem (by decide) v w]

theorem srcAnchor_ws {c : Char} (hc : isWs c = true) (v w : List Char) :
    srcAnchor (v ++ c :: w) = srcAnchor v := by
  unfold srcAnchor
  have h0 : ∀ d ∈ srcHdr0, isWs d = false := by decide
  have h1 : ∀ d ∈ srcHdr, isWs d = false := by decide
  rw [isPrefixOf_append_not_mem (fun hm => by simp [h0 c hm] at hc) v w,
    isPrefixOf_append_not_mem (fun hm => by simp [h1 c hm] at hc) v w]

theorem licAnchor_nil : licAnchor [] = false := by decide

theorem licAnchor_nl (v w : List Char) : licAnchor (v ++ '\n' :: w) = licAnchor v :=
  isPrefixOf_append_not_mem (by decide) v w

theorem licAnchor_ws {c : Char} (hc : isWs c = true) (v w : List Char) :
    licAnchor (v ++ c :: w) = licAnchor v := by
  refine isPrefixOf_append_not_mem ?_ v w
  intro hm
  have hall : ∀ d ∈ licHdr, isWs d = false := by decide
  simp [hall c hm] at hc

/- Stepping lemmas for the substitution machines of fix_name and
fix_source0, used to evaluate them on one matched line at a time. -/

theorem subName_step (canon rest : List Char) :
    subNameGo canon (MSt.scan true) (namePat ++ rest) =
      canon ++ subNameGo canon MSt.ws rest := by
  simp [namePat, subNameGo, List.isPrefixOf]

theorem subName_ws_skip (canon : List Char) {w : List Char} (hw : ∀ c ∈ w, isWs c = true)
    (rest : List Char) : subNameGo canon MSt.ws (w ++ rest) = subNameGo canon MSt.ws rest := by
  induction w with
  | nil => rfl
  | cons c w' ih =>
    rw [List.cons_append]
    have hc := hw c (List.mem_cons_self c w')
    simp only [subNameGo, hc, if_true]
    exact ih (fun d hd => hw d (List.mem_cons_of_mem c hd))

theorem subName_ws_stop (canon : List Char) {c : Char} (hc : isWs c = false)
    (rest : List Char) : subNameGo canon MSt.ws (c :: rest) = subNameGo canon MSt.toEol rest := by
  simp [subNameGo, hc]

theorem subName_toEol (canon : List Char) {u : List Char} (hu : '\n' ∉ u)
    (rest : List Char) : subNameGo canon MSt.toEol (u ++ '\n' :: rest) =
      '\n' :: subNameGo canon (MSt.scan true) rest := by
  induction u with
  | nil => simp [subNameGo]
  | cons c u' ih =>
    rw [List.cons_append]
    have hc : ¬ (c = '\n') := fun he => hu (he ▸ List.mem_cons_self c u')
    simp only [subNameGo, hc, if_false]
    exact ih (fun hm => hu (List.mem_cons_of_mem c hm))

/-- One full matched `Name:` line (with a non-whitespace character in its
value and terminated by a newline) is rewritten to the canonical text. -/
theorem subName_line (canon : List Char) {a : List Char} (ha1 : '\n' ∉ a)
    (ha2 : ∃ c ∈ a, isWs c = false) (rest : List Char) :
    subNameGo canon (MSt.scan true) (namePat ++ (a ++ '\n' :: rest)) =
      canon ++ '\n' :: subNameGo canon (MSt.scan true) rest := by
  rw [subName_step]
  congr 1
  obtain ⟨d, u, hdu⟩ : ∃ d u, a.dropWhile isWs = d :: u := by
    cases h : a.dropWhile isWs with
    | nil =>
      exfalso
      obtain ⟨c, hc, hcw⟩ := ha2
      have := List.dropWhile_eq_nil_iff.mp h c hc
      simp [this] at hcw
    | cons d u => exact ⟨d, u, rfl⟩
  have hd : isWs d = false := dropWhile_head_false hdu
  have ha : a.takeWhile isWs ++ d :: u = a := by
    rw [← hdu]; exact List.takeWhile_append_dropWhile isWs a
  have hsub : ∀ c ∈ d :: u, c ∈ a := by
    intro c hc
    rw [← ha]
    exact List.mem_append_right _ hc
  calc subNameGo canon MSt.ws (a ++ '\n' :: rest)
      = subNameGo canon MSt.ws ((a.takeWhile isWs ++ d :: u) ++ '\n' :: rest) := by rw [ha]
    _ = subNameGo canon MSt.ws (a.takeWhile isWs ++ (d :: (u ++ '\n' :: rest))) := by
        simp [List.append_assoc]
    _ = subNameGo canon MSt.ws (d :: (u ++ '\n' :: rest)) :=
        subName_ws_skip canon (fun c hc => List.mem_takeWhile_imp hc) _
    _ = subNameGo canon MSt.toEol (u ++ '\n' :: rest) := subName_ws_stop canon hd _
    _ = '\n' :: subNameGo canon (MSt.scan true) rest :=
        subName_toEol canon (fun hm => ha1 (hsub '\n' (List.mem_cons_of_mem d hm))) rest

theorem subSrc_step0 (rest : List Char) :
    subSrcGo (MSt.scan true) (srcHdr0 ++ rest) = srcHdr0 ++ subSrcGo MSt.ws rest := by
  simp [srcHdr0, subSrcGo, List.isPrefixOf]

theorem subSrc_step1 (rest : List Char) :
    subSrcGo (MSt.scan true) (srcHdr ++ rest) = srcHdr ++ subSrcGo MSt.ws rest := by
  have hcons : srcHdr ++ rest = 'S' :: 'o' :: 'u' :: 'r' :: 'c' :: 'e' :: ':' :: rest := rfl
  have hcons2 : srcHdr ++ subSrcGo MSt.ws rest =
      'S' :: 'o' :: 'u' :: 'r' :: 'c' :: 'e' :: ':' :: subSrcGo MSt.ws rest := rfl
  rw [hcons, hcons2]
  simp [subSrcGo, srcHdr0, srcHdr, List.isPrefixOf]

theorem subSrc_ws_skip {w : List Char} (hw : ∀ c ∈ w, isWs c = true)
    (rest : List Char) : subSrcGo MSt.ws (w ++ rest) = w ++ subSrcGo MSt.ws rest := by
  induction w with
  | nil => rfl
  | cons c w' ih =>
    rw [List.cons_append]
    have hc := hw c (List.mem_cons_self c w')
    simp only [subSrcGo, hc, if_true]
    rw [ih (fun d hd => hw d (List.mem_cons_of_mem c hd)), List.cons_append]

theorem subSrc_ws_stop {c : Char} (hc : isWs c = false) (rest : List Char) :
    subSrcGo MSt.ws (c :: rest) = srcTempl ++ subSrcGo MSt.toEol rest := by
  simp [subSrcGo, hc]

theorem subSrc_toEol {u : List Char} (hu : '\n' ∉ u) (rest : List Char) :
    subSrcGo MSt.toEol (u ++ '\n' :: rest) = '\n' :: subSrcGo (MSt.scan true) rest := by
  induction u with
  | nil => simp [subSrcGo]
  | cons c u' ih =>
    rw [List.cons_append]
    have hc : ¬ (c = '\n') := fun he => hu (he ▸ List.mem_cons_self c u')
    simp only [subSrcGo, hc, if_false]
    exact ih (fun hm => hu (List.mem_cons_of_mem c hm))

/-- One matched `Source0:` line: the keyword and the whitespace run are kept
(the captured group) and the remainder of the line becomes the template. -/
theorem subSrc_line0 {a : List Char} (ha1 : '\n' ∉ a)
    (ha2 : ∃ c ∈ a, isWs c = false) (rest : List Char) :
    subSrcGo (MSt.scan true) (srcHdr0 ++ (a ++ '\n' :: rest)) =
      srcHdr0 ++ a.takeWhile isWs ++ srcTempl ++ '\n' :: subSrcGo (MSt.scan true) rest := by
  rw [subSrc_step0]
  obtain ⟨d, u, hdu⟩ : ∃ d u, a.dropWhile isWs = d :: u := by
    cases h : a.dropWhile isWs with
    | nil =>
      exfalso
      obtain ⟨c, hc, hcw⟩ := ha2
      have := List.dropWhile_eq_nil_iff.mp h c hc
      simp [this] at hcw
    | cons d u => exact ⟨d, u, rfl⟩
  have hd : isWs d = false := dropWhile_head_false hdu
  have ha : a.takeWhile isWs ++ d :: u = a := by
    rw [← hdu]; exact List.takeWhile_append_dropWhile isWs a
  have hsub : ∀ c ∈ d :: u, c ∈ a := by
    intro c hc
    rw [← ha]
    exact List.mem_append_right _ hc
  have : subSrcGo MSt.ws (a ++ '\n' :: rest) =
      a.takeWhile isWs ++ (srcTempl ++ '\n' :: subSrcGo (MSt.scan true) rest) := by
    calc subSrcGo MSt.ws (a ++ '\n' :: rest)
        = subSrcGo MSt.ws ((a.takeWhile isWs ++ d :: u) ++ '\n' :: rest) := by rw [ha]
      _ = subSrcGo MSt.ws (a.takeWhile isWs ++ (d :: (u ++ '\n' :: rest))) := by
          simp [List.append_assoc]
      _ = a.takeWhile isWs ++ subSrcGo MSt.ws (d :: (u ++ '\n' :: rest)) :=
          subSrc_ws_skip (fun c hc => List.mem_takeWhile_imp hc) _
      _ = a.takeWhile isWs ++ (srcTempl ++ subSrcGo MSt.toEol (u ++ '\n' :: rest)) := by
          rw [subSrc_ws_stop hd]
      _ = a.takeWhile isWs ++ (srcTempl ++ '\n' :: subSrcGo (MSt.scan true) rest) := by
          rw [subSrc_toEol (fun hm => ha1 (hsub '\n' (List.mem_cons_of_mem d hm))) rest]
  rw [this]
  simp [List.append_assoc]

/-- One matched `Source:` line, analogously. -/
theorem subSrc_line1 {a : List Char} (ha1 : '\n' ∉ a)
    (ha2 : ∃ c ∈ a, isWs c = false) (rest : List Char) :
    subSrcGo (MSt.scan true) (srcHdr ++ (a ++ '\n' :: rest)) =
      srcHdr ++ a.takeWhile isWs ++ srcTempl ++ '\n' :: subSrcGo (MSt.scan true) rest := by
  rw [subSrc_step1]
  obtain ⟨d, u, hdu⟩ : ∃ d u, a.dropWhile isWs = d :: u := by
    cases h2 : a.dropWhile isWs with
    | nil =>
      exfalso
      obtain ⟨c, hc, hcw⟩ := ha2
      have := List.dropWhile_eq_nil_iff.mp h2 c hc
      simp [this] at hcw
    | cons d u => exact ⟨d, u, rfl⟩
  have hd : isWs d = false := dropWhile_head_false hdu
  have ha : a.takeWhile isWs ++ d :: u = a := by
    rw [← hdu]; exact List.takeWhile_append_dropWhile isWs a
  have hsub : ∀ c ∈ d :: u, c ∈ a := by
    intro c hc
    rw [← ha]
    exact List.mem_append_right _ hc
  have : subSrcGo MSt.ws (a ++ '\n' :: rest) =
      a.takeWhile isWs ++ (srcTempl ++ '\n' :: subSrcGo (MSt.scan true) rest) := by
    calc subSrcGo MSt.ws (a ++ '\n' :: rest)
        = subSrcGo MSt.ws ((a.takeWhile isWs ++ d :: u) ++ '\n' :: rest) := by rw [ha]
      _ = subSrcGo MSt.ws (a.takeWhile isWs ++ (d :: (u ++ '\n' :: rest))) := by
          simp [List.append_assoc]
      _ = a.takeWhile isWs ++ subSrcGo MSt.ws (d :: (u ++ '\n' :: rest)) :=
          subSrc_ws_skip (fun c hc => List.mem_takeWhile_imp hc) _
      _ = a.takeWhile isWs ++ (srcTempl ++ subSrcGo MSt.toEol (u ++ '\n' :: rest)) := by
          rw [subSrc_ws_stop hd]
      _ = a.takeWhile isWs ++ (srcTempl ++ '\n' :: subSrcGo (MSt.scan true) rest) := by
          rw [subSrc_toEol (fun hm => ha1 (hsub '\n' (List.mem_cons_of_mem d hm))) rest]
  rw [this]
  simp [List.append_assoc]

/- ----------------------------------------------------------------------
gen_tarballs.py / fix_specs.py main: canonical naming.
`pkg_name.replace("_", "-")` replaces a single character, hence a map.
---------------------------------------------------------------------- -/

/-- `name_hyphen = pkg_name.replace("_", "-")`. -/
def nameHyphen (s : String) : String :=
  String.mk (s.toList.map (fun c => if c = '_' then '-' else c))

/-- `ros_pkg_name = f"ros-{ros_distro}-{name_hyphen}"` (gen_tarballs.py). -/
def rosPkgName (distro pkgName : String) : String :=
  "ros-" ++ distro ++ "-" ++ nameHyphen pkgName

/-- `tarball_name = f"{ros_pkg_name}_{version}.orig.tar.gz"`. -/
def tarballName (distro pkgName version : String) : String :=
  rosPkgName distro pkgName ++ "_" ++ version ++ ".orig.tar.gz"

/-- `prefix_dir = f"{ros_pkg_name}-{version}"` (the internal root of the archive). -/
def prefixDirName (distro pkgName version : String) : String :=
  rosPkgName distro pkgName ++ "-" ++ version

/-- `rpm_name = f"ros-{args.ros_distro}-{pkg_hyphen}"` (fix_specs.py main). -/
def rpmNameOf (distro pkgName : String) : String :=
  "ros-" ++ distro ++ "-" ++ nameHyphen pkgName

/- ----------------------------------------------------------------------
gen_tarballs.py: fallback tar archiver.

A source tree is a forest of named entries; archive member names are lists of
path components (`os.path.join` concatenates components with `/`, and
`tar_filter_exclude_git` splits the name back on `/`; individual file names
cannot contain `/`, so the component list is the faithful representation).
---------------------------------------------------------------------- -/

/-- A forest of file-system entries (files and directories with children). -/
inductive Fs where
  | nil : Fs
  | file (name : String) (rest : Fs) : Fs
  | dir (name : String) (children : Fs) (rest : Fs) : Fs
deriving DecidableEq, Repr

/-- `tar_filter_exclude_git`: keep an entry iff `.git` is not among the
components of its archive name (`name.split("/")`). -/
def tar_filter_exclude_git (parts : List String) : Bool :=
  !parts.contains (".git")

/--
`tarfile.TarFile.add(path, arcname, filter)` on the members of a directory:
each entry is passed through the filter; an excluded entry is dropped
together with its whole subtree (`tarfile` returns before recursing when the
filter yields None); an included directory is emitted and then its children
are added under the extended archive name.
-/
def tarAddEntries : List String → Fs → List (List String)
  | _, Fs.nil => []
  | arc, Fs.file n rest =>
    (if tar_filter_exclude_git (arc ++ [n]) then [arc ++ [n]] else []) ++ tarAddEntries arc rest
  | arc, Fs.dir n ch rest =>
    (if tar_filter_exclude_git (arc ++ [n]) then (arc ++ [n]) :: tarAddEntries (arc ++ [n]) ch
     else []) ++ tarAddEntries arc rest

/-- `run_fallback_tar_archive`: archive the package tree with `prefix_dir`
substituted as root; returns the list of archive member names. -/
def run_fallback_tar_archive (prefixDir : String) (tree : Fs) : List (List String) :=
  if tar_filter_exclude_git [prefixDir] then [prefixDir] :: tarAddEntries [prefixDir] tree
  else []

/-- Direct enumeration of the members of a forest under a base name. -/
def treeEntries : List String → Fs → List (List String)
  | _, Fs.nil => []
  | arc, Fs.file n rest => (arc ++ [n]) :: treeEntries arc rest
  | arc, Fs.dir n ch rest =>
    (arc ++ [n]) :: (treeEntries (arc ++ [n]) ch ++ treeEntries arc rest)

/- ----------------------------------------------------------------------
Version resolvers: gen_tarballs.read_version_from_package_xml and
legacy/split_legacy.parse_version.
---------------------------------------------------------------------- -/

/-- A forest of XML elements (tag, optional text, children, next sibling). -/
inductive XmlForest where
  | nil : XmlForest
  | node (tag : String) (text : Option String) (children : XmlForest) (rest : XmlForest) : XmlForest
deriving DecidableEq, Repr

/-- State of the package manifest: missing file, XML parse error, or a parsed
root element. -/
inductive ManifestState where
  | absent : ManifestState
  | unparsable : ManifestState
  | parsed (tag : String) (text : Option String) (children : XmlForest) : ManifestState
deriving DecidableEq, Repr

/-- Python `str.strip()` on strings. -/
def pyStripS (s : String) : String := String.mk (pyStrip s.toList)

/--
The loop of `read_version_from_package_xml` over `root.iter()` (document
order: element first, then its subtree, then its siblings): the first element
whose tag ends in `version` with truthy text and truthy stripped text yields
that stripped text; elements whose stripped text is empty leave only a falsy
leftover, which the function maps to None.
-/
def findVersionText : XmlForest → Option String
  | XmlForest.nil => none
  | XmlForest.node tag txt ch rest =>
    if tag.endsWith ("version") &&
        (match txt with
         | none => false
         | some s => !(s = "") && !(pyStripS s = "")) then
      (txt.map pyStripS)
    else
      match findVersionText ch with
      | some v => some v
      | none => findVersionText rest

/-- `read_version_from_package_xml`: None when the manifest is absent or
unparsable or holds no usable `<version>` text. -/
def read_version_from_package_xml : ManifestState → Option String
  | ManifestState.absent => none
  | ManifestState.unparsable => none
  | ManifestState.parsed tag txt ch => findVersionText (XmlForest.node tag txt ch XmlForest.nil)

/-- `root.findtext("version", default=...)`: first direct child tagged
exactly `version`; its text, with `""` for a text-less element. -/
def findTextVersion : XmlForest → Option (Option String)
  | XmlForest.nil => none
  | XmlForest.node tag txt _ rest =>
    if tag = ("version") then some txt else findTextVersion rest

/-- `re.sub(r"\s+", "", s)` (strip is subsumed). -/
def removeAllWs (s : String) : String := String.mk (s.toList.filter (fun c => !isWs c))

/-- `parse_version` of legacy/split_legacy.py: `0.0.0` fallback on a missing
manifest, any exception, or an empty version text. -/
def parse_version : ManifestState → String
  | ManifestState.absent => ("0.0.0")
  | ManifestState.unparsable => ("0.0.0")
  | ManifestState.parsed _ _ ch =>
    let ft :=
      match findTextVersion ch with
      | none => ("0.0.0")
      | some none => ("")
      | some (some s) => s
    let ver := removeAllWs ft
    if ver = ("") then ("0.0.0") else ver

/- ----------------------------------------------------------------------
load_pkg_list (fix_specs.py, gen_template_specs.py) and the inline loop of
gen_tarballs.main: per-line classification of the package list.
---------------------------------------------------------------------- -/

/-- Outcome of one line of the package list. -/
inductive LineResult where
  | skip : LineResult
  | warn : LineResult
  | entry (pkgName pkgPath : List Char) : LineResult
deriving DecidableEq, Repr

def hashPat : List Char := ("#").toList

/-- The body of the `load_pkg_list` loop for one raw line. -/
def classifyLine (line : List Char) : LineResult :=
  let t := pyStrip line
  if t.isEmpty || hashPat.isPrefixOf t then LineResult.skip
  else
    let ps := splitWs t
    if ps.length < 2 then LineResult.warn
    else LineResult.entry (ps.getD 0 []) (ps.getD 1 [])

/-- `load_pkg_list`: the entries produced from a list of raw lines. -/
def load_pkg_list (lines : List (List Char)) : List (List Char × List Char) :=
  lines.foldr
    (fun l acc =>
      match classifyLine l with
      | LineResult.entry a b => (a, b) :: acc
      | _ => acc)
    []

/- ----------------------------------------------------------------------
Observables used to state the claims about concrete documents.
---------------------------------------------------------------------- -/

/-- Number of lines beginning with `%files` (files-section headers). -/
def countFilesHeaders (t : List Char) : Nat :=
  ((splitKeep t).filter (fun l => ("%files").toList.isPrefixOf l)).length

/-- Number of lines matching the debug-disable directive anchor. -/
def countDebugDirectives (t : List Char) : Nat :=
  ((splitKeep t).filter (fun l => debugAnchor l)).length

/-- Whether a line is a lifecycle section header (`%build`, `%install` or
`%check` followed by a word boundary). -/
def lifecycleHeader (l : List Char) : Bool :=
  (secBuild.isPrefixOf l &&
    (match l.drop 6 with | [] => true | c :: _ => !isWordChar c)) ||
  (secInstall.isPrefixOf l &&
    (match l.drop 8 with | [] => true | c :: _ => !isWordChar c)) ||
  (secCheck.isPrefixOf l &&
    (match l.drop 6 with | [] => true | c :: _ => !isWordChar c))

def markerLine : List Char := marker ++ ['\n']

/-- Every lifecycle header line of the document is immediately followed by
the marker line of the injected export block. -/
def eachHeaderMarked (t : List Char) : Bool :=
  (let ls := splitKeep t
   (List.range ls.length).all
     (fun i => !(lifecycleHeader (ls.getD i [])) || (ls.getD (i + 1) [] == markerLine)))

/-- Number of marker-comment lines in the document. -/
def countMarkerLines (t : List Char) : Nat :=
  ((splitKeep t).filter (fun l => l == markerLine)).length

/-- A representative well-formed input document: `Name`, `License`,
`Source0`, `%build` and `%install` sections, a `%files` section and a
`%changelog` section, no `%check` and no marker. -/
def demoSpec : List Char :=
  ("Name: foo\nLicense: MIT\nSource0: foo.tar.gz\n%build\ncmake\n%install\nmake install\n%files\n/usr\n%changelog\n* old\n").toList

/- ----------------------------------------------------------------------
Claims.
---------------------------------------------------------------------- -/

/--
Claim C1 (code bug): the spec demands that every transform step of the patch
pipeline be idempotent (`T(T(D)) = T(D)` for every document `D`), and the
docstring of `fix_files_section` states that it rewrites the main `%files`
section.  On a document that has a `%files` section but no `%changelog`
section, `fix_files_section` instead appends a second `%files` block, and a
second application appends yet another one, so `T(T(D)) ≠ T(D)` at the
document `"%files\n/usr\n"`.
-/
theorem claim_C1_files_not_idempotent :
    fix_files_section rosPref0 (fix_files_section rosPref0 (("%files\n/usr\n").toList)) ≠
      fix_files_section rosPref0 (("%files\n/usr\n").toList) := by decide

/--
Claim C2 (code bug): the spec demands that after the full pipeline the
document contain exactly one files section (and one debug-disable
directive) regardless of the input.  For the input `"%files\n/usr\n"` (a
files section but no `%changelog`), the full pipeline `patch_spec_text`
leaves the original `%files` section untouched and appends a second one, so
the result has two files-section header lines.
-/
theorem claim_C2_two_files_sections :
    countFilesHeaders (patch_spec_text rpmName0 rosPref0 (("%files\n/usr\n").toList)) = 2 ∧
      countDebugDirectives (patch_spec_text rpmName0 rosPref0 (("%files\n/usr\n").toList)) = 1 := by
  exact ⟨by decide, by decide⟩

/--
Claim C4, counterexample: the primary version resolver
`read_version_from_package_xml` of gen_tarballs.py does not return the
fallback version `"0.0.0"` for an absent manifest — it returns no version at
all (`None`), and its caller then skips the package.
-/
theorem claim_C4_counterexample :
    read_version_from_package_xml ManifestState.absent = none ∧
      read_version_from_package_xml ManifestState.absent ≠ some ("0.0.0") := by
  exact ⟨rfl, by decide⟩

/--
Claim C4, amended: for an absent or unparsable manifest the legacy resolver
`parse_version` (split_legacy.py) returns the fallback `"0.0.0"` without
raising, while the main resolver `read_version_from_package_xml`
(gen_tarballs.py) returns no version (`None`) without raising; its caller
records the package as no-version instead of using a fallback.
-/
theorem claim_C4_amended :
    ∀ m : ManifestState, m = ManifestState.absent ∨ m = ManifestState.unparsable →
      parse_version m = ("0.0.0") ∧ read_version_from_package_xml m = none := by
  intro m hm
  rcases hm with rfl | rfl
  · exact ⟨rfl, rfl⟩
  · exact ⟨rfl, rfl⟩

theorem claim_C4_witness :
    parse_version ManifestState.absent = ("0.0.0") ∧
      read_version_from_package_xml ManifestState.absent = none :=
  claim_C4_amended ManifestState.absent (Or.inl rfl)

/--
Claim C6: for package name `foo_bar`, distro `jazzy` and version `1.2.3`,
the canonical identifier is `ros-jazzy-foo-bar`, the archive filename is
`ros-jazzy-foo-bar_1.2.3.orig.tar.gz`, the internal top-level directory of
the archive is `ros-jazzy-foo-bar-1.2.3`, and fix_specs computes the same
canonical identifier; underscores become hyphens in all of them.
-/
theorem claim_C6_round_trip_naming :
    rosPkgName ("jazzy") ("foo_bar") = ("ros-jazzy-foo-bar") ∧
    tarballName ("jazzy") ("foo_bar") ("1.2.3") = ("ros-jazzy-foo-bar_1.2.3.orig.tar.gz") ∧
    prefixDirName ("jazzy") ("foo_bar") ("1.2.3") = ("ros-jazzy-foo-bar-1.2.3") ∧
    rpmNameOf ("jazzy") ("foo_bar") = ("ros-jazzy-foo-bar") := by
  refine ⟨?_, ?_, ?_, ?_⟩ <;> decide

/-- Every entry enumerated under a base name extends that base name. -/
theorem treeEntries_extend : ∀ (fs : Fs) (arc p : List String),
    p ∈ treeEntries arc fs → ∃ q, p = arc ++ q := by
  intro fs
  induction fs with
  | nil => intro arc p h; simp [treeEntries] at h
  | file n rest ih =>
    intro arc p h
    simp only [treeEntries, List.mem_cons] at h
    rcases h with rfl | h
    · exact ⟨[n], rfl⟩
    · exact ih arc p h
  | dir n ch rest ihc ihr =>
    intro arc p h
    simp only [treeEntries, List.mem_cons, List.mem_append] at h
    rcases h with rfl | h | h
    · exact ⟨[n], rfl⟩
    · obtain ⟨q, hq⟩ := ihc (arc ++ [n]) p h
      exact ⟨[n] ++ q, by rw [hq, List.append_assoc]⟩
    · exact ihr arc p h

/-- The tar walk under a clean base name archives exactly the enumerated
entries that pass the version-control filter. -/
theorem tarAddEntries_eq_filter : ∀ (fs : Fs) (arc : List String),
    tar_filter_exclude_git arc = true →
    tarAddEntries arc fs = (treeEntries arc fs).filter tar_filter_exclude_git := by
  intro fs
  induction fs with
  | nil => intro arc _; rfl
  | file n rest ih =>
    intro arc h
    simp only [tarAddEntries, treeEntries, List.filter_cons]
    rw [ih arc h]
    cases hf : tar_filter_exclude_git (arc ++ [n]) <;> simp [hf]
  | dir n ch rest ihc ihr =>
    intro arc h
    simp only [tarAddEntries, treeEntries, List.filter_cons, List.filter_append]
    cases hf : tar_filter_exclude_git (arc ++ [n])
    · have hf2 : (".git" : String) ∉ arc → (".git" : String) = n := by
        simpa [tar_filter_exclude_git] using hf
      have hgit : (".git" : String) ∈ arc ++ [n] := by
        rw [List.mem_append, List.mem_singleton]
        by_cases hmem : (".git" : String) ∈ arc
        · exact Or.inl hmem
        · exact Or.inr (hf2 hmem)
      have hch : (treeEntries (arc ++ [n]) ch).filter tar_filter_exclude_git = [] := by
        rw [List.filter_eq_nil_iff]
        intro p hp
        obtain ⟨q, hq⟩ := treeEntries_extend ch (arc ++ [n]) p hp
        have : (".git" : String) ∈ p := hq ▸ List.mem_append_left q hgit
        simp [tar_filter_exclude_git, this]
      simp [hf, hch, ihr arc h]
    · simp [hf, ihc (arc ++ [n]) hf, ihr arc h]

/--
Claim C8: the fallback tar archiver includes every entry of the source tree
under the prefix-directory root and excludes exactly the entries whose
archive path contains `.git` as a component: the archived member list equals
the direct enumeration of the tree filtered by the version-control filter.
-/
theorem claim_C8_fallback_tar (pd : String) (tree : Fs) (h : pd ≠ (".git")) :
    run_fallback_tar_archive pd tree =
      ([pd] :: treeEntries [pd] tree).filter tar_filter_exclude_git := by
  have hf : tar_filter_exclude_git [pd] = true := by
    simp [tar_filter_exclude_git]
    exact fun he => h he.symm
  unfold run_fallback_tar_archive
  rw [List.filter_cons]
  simp only [hf, if_true]
  rw [tarAddEntries_eq_filter tree [pd] hf]

/-- A sample tree: a `.git` directory with contents plus a regular file. -/
def sampleTree : Fs :=
  Fs.dir (".git") (Fs.file ("config") Fs.nil) (Fs.file ("a.txt") Fs.nil)

theorem claim_C8_witness :
    run_fallback_tar_archive ("pkg-1.0") sampleTree =
      (["pkg-1.0"] :: treeEntries ["pkg-1.0"] sampleTree).filter tar_filter_exclude_git :=
  claim_C8_fallback_tar ("pkg-1.0") sampleTree (by decide)

/--
Claim C10: a package-list line with more than two whitespace-separated
fields is accepted without warning or skip and yields the entry made of its
first two fields, the remaining fields being ignored; and a (non-blank,
non-comment) line is warned and skipped exactly when it has fewer than two
fields.
-/
theorem claim_C10_loader :
    (∀ line : List Char,
      hashPat.isPrefixOf (pyStrip line) = false →
      2 < (splitWs (pyStrip line)).length →
      classifyLine line =
        LineResult.entry ((splitWs (pyStrip line)).getD 0 [])
          ((splitWs (pyStrip line)).getD 1 [])) ∧
    (∀ line : List Char, classifyLine line = LineResult.warn ↔
      ((pyStrip line).isEmpty = false ∧ hashPat.isPrefixOf (pyStrip line) = false ∧
        (splitWs (pyStrip line)).length < 2)) := by
  constructor
  · intro line hnc hlen
    have hne : (pyStrip line).isEmpty = false := by
      cases h : pyStrip line with
      | nil => rw [h] at hlen; simp [splitWs] at hlen
      | cons c cs => simp
    have h2 : ¬ ((splitWs (pyStrip line)).length < 2) := by omega
    simp [classifyLine, hne, hnc, h2]
  · intro line
    by_cases he : (pyStrip line).isEmpty = true
    · have hc : classifyLine line = LineResult.skip := by simp [classifyLine, he]
      rw [hc]
      constructor
      · intro h; exact LineResult.noConfusion h
      · rintro ⟨hne, _, _⟩; exact absurd he (by simp [hne])
    · by_cases hp : hashPat.isPrefixOf (pyStrip line) = true
      · have hc : classifyLine line = LineResult.skip := by simp [classifyLine, hp]
        rw [hc]
        constructor
        · intro h; exact LineResult.noConfusion h
        · rintro ⟨_, hnc, _⟩; simp [hp] at hnc
      · have he2 : (pyStrip line).isEmpty = false := by
          cases hb : (pyStrip line).isEmpty
          · rfl
          · exact absurd hb he
        have hp2 : hashPat.isPrefixOf (pyStrip line) = false := by
          cases hb : hashPat.isPrefixOf (pyStrip line)
          · rfl
          · exact absurd hb hp
        by_cases hl : (splitWs (pyStrip line)).length < 2
        · have hc : classifyLine line = LineResult.warn := by
            simp [classifyLine, he2, hp2, hl]
          rw [hc]
          simp [he2, hp2, hl]
        · constructor
          · intro h
            have hc : classifyLine line =
                LineResult.entry ((splitWs (pyStrip line)).getD 0 [])
                  ((splitWs (pyStrip line)).getD 1 []) := by
              simp [classifyLine, he2, hp2, hl]
            rw [hc] at h
            exact LineResult.noConfusion h
          · rintro ⟨_, _, h2⟩; exact absurd h2 hl

/--
Claim C5, counterexample: for the input `"%build\n%build\n"` — which has no
`%check` section and no marker — the full pipeline inserts the export block
only after the first `%build` header, not after each lifecycle header
present, and re-running the pipeline on its own output is not byte-identical
(the document has no `%changelog`, so the files-section fallback appends a
new `%files` block on every run).
-/
theorem claim_C5_counterexample :
    containsSub marker (("%build\n%build\n").toList) = false ∧
    containsSub secCheck (("%build\n%build\n").toList) = false ∧
    eachHeaderMarked (patch_spec_text rpmName0 rosPref0 (("%build\n%build\n").toList)) = false ∧
    patch_spec_text rpmName0 rosPref0
        (patch_spec_text rpmName0 rosPref0 (("%build\n%build\n").toList)) ≠
      patch_spec_text rpmName0 rosPref0 (("%build\n%build\n").toList) := by
  refine ⟨?_, ?_, ?_, ?_⟩ <;> decide

/--
Claim C5, amended: if the marker is already present anywhere in the
document, the injection transform returns it unchanged (for every document
and every prefix); for a document with no `%check` section and no marker the
pipeline inserts the marker block immediately after the first occurrence of
each lifecycle header present — as exhibited on the representative document
`demoSpec` (which contains `%build`, `%install` and a `%changelog` section):
each header is followed by the marker exactly once, and re-running the full
pipeline on its output is byte-identical.
-/
theorem claim_C5_amended :
    (∀ (rp t : List Char), containsSub marker t = true → inject_ros_pythonpath rp t = t) ∧
    containsSub marker demoSpec = false ∧
    containsSub secCheck demoSpec = false ∧
    patch_spec_text rpmName0 rosPref0 (patch_spec_text rpmName0 rosPref0 demoSpec) =
      patch_spec_text rpmName0 rosPref0 demoSpec ∧
    eachHeaderMarked (patch_spec_text rpmName0 rosPref0 demoSpec) = true ∧
    countMarkerLines (patch_spec_text rpmName0 rosPref0 demoSpec) = 2 := by
  refine ⟨?_, by decide, by decide, by decide, by decide, by decide⟩
  intro rp t h
  unfold inject_ros_pythonpath
  rw [if_pos h]

theorem claim_C5_witness :
    inject_ros_pythonpath rosPref0 (("# BEGIN ros_pythonpath\nx\n").toList) =
      (("# BEGIN ros_pythonpath\nx\n").toList) :=
  claim_C5_amended.1 rosPref0 (("# BEGIN ros_pythonpath\nx\n").toList) (by decide)

theorem okPre_drop_left {X e : List Char} (h : okPre true (X ++ e)) : okPre true e := by
  cases e with
  | nil => exact okPre_nil
  | cons c cs =>
    rcases h with ⟨hne, _⟩ | h2
    · simp at hne
    · right
      rwa [List.getLast?_append_of_ne_nil _ (List.cons_ne_nil _ _)] at h2

/--
Claim C9, counterexample: on the document
`"%changelog\n%files\nx\n%changelog\n"` — whose first line starts with
`%changelog` — `fix_files_section` replaces the `%files` block lying after
the first `%changelog` line (the block match anchors on the second
`%changelog`), so the suffix of the document from its first `%changelog`
line (here the whole document) is not preserved, and the change is not
confined to the text strictly before that line.
-/
theorem claim_C9_counterexample :
    ("%changelog").toList.isPrefixOf (("%changelog\n%files\nx\n%changelog\n").toList) = true ∧
    (("%changelog\n%files\nx\n%changelog\n").toList).isSuffixOf
        (fix_files_section rosPref0 (("%changelog\n%files\nx\n%changelog\n").toList)) = false := by
  exact ⟨by decide, by decide⟩

/--
Claim C9, amended: if the first `^%changelog\b` anchored line of the
document (found at `pre ++ csuf` with `csuf` the suffix from that line) has
no `%files` header line at or after it, then `fix_files_section` leaves the
whole suffix from that line unchanged: the result is some prefix `q`
followed by `csuf`, so only text strictly before the first `%changelog`
line is replaced or inserted.
-/
theorem claim_C9_amended (rp t pre csuf : List Char)
    (hc : scanSplit chlogAnchor t = some (pre, csuf))
    (hnf : scanSplit filesAnchor csuf = none) :
    ∃ q, fix_files_section rp t = q ++ csuf := by
  obtain ⟨ht, hcc⟩ := scan_shape chlogAnchor t true pre csuf hc
  have hokp := scan_okPre chlogAnchor t true pre csuf hc
  cases hfb : findFilesBlock t with
  | none =>
    refine ⟨pre ++ (("%files\n").toList ++ rp ++ ['\n']) ++ ['\n'], ?_⟩
    simp only [fix_files_section, hfb]
    rw [hc]
    simp [List.append_assoc]
  | some fc =>
    obtain ⟨fpre, c2⟩ := fc
    have hunfold : ∃ fsuf mid, scanSplit filesAnchor t = some (fpre, fsuf) ∧
        scanSplit chlogAnchor (((fsuf.drop 6).dropWhile (fun c => c ≠ '\n')).drop 1) =
          some (mid, c2) := by
      unfold findFilesBlock at hfb
      split at hfb
      · simp at hfb
      · rename_i fp fs h1
        dsimp only at hfb
        split at hfb
        · simp at hfb
        · rename_i m cc h2
          simp only [Option.some.injEq, Prod.mk.injEq] at hfb
          obtain ⟨rfl, rfl⟩ := hfb
          exact ⟨fs, m, h1, h2⟩
    obtain ⟨fsuf, mid, hfa, hin⟩ := hunfold
    obtain ⟨htf, hfile⟩ := scan_shape filesAnchor t true fpre fsuf hfa
    have hokf := scan_okPre filesAnchor t true fpre fsuf hfa
    have hfile2 := hfile
    unfold filesAnchor at hfile2
    rw [Bool.and_eq_true] at hfile2
    have hpre6 : ("%files").toList.isPrefixOf fsuf = true := hfile2.1
    have hDne : (((fsuf.drop 6).dropWhile (fun c => c ≠ '\n'))).isEmpty = false := by
      have := hfile2.2
      simpa using this
    obtain ⟨R, hR⟩ : ∃ R, fsuf = ("%files").toList ++ R := by
      obtain ⟨r, hr⟩ := List.isPrefixOf_iff_prefix.mp hpre6
      exact ⟨r, hr.symm⟩
    have hRdrop : fsuf.drop 6 = R := by
      rw [hR]
      have h6 : ((("%files").toList).length : Nat) = 6 := by decide
      rw [← h6, List.drop_left]
    obtain ⟨afterHdr, hafter⟩ :
        ∃ a, R.dropWhile (fun c => c ≠ '\n') = '\n' :: a := by
      cases hdd : R.dropWhile (fun c => c ≠ '\n') with
      | nil =>
        rw [hRdrop, hdd] at hDne
        simp at hDne
      | cons d a =>
        have hd := dropWhile_head_false hdd
        have hdn : d = '\n' := by simpa using hd
        exact ⟨a, by rw [hdn]⟩
    have hfsufL : fsuf = (("%files").toList ++ R.takeWhile (fun c => c ≠ '\n')) ++
        '\n' :: afterHdr := by
      rw [hR, List.append_assoc]
      congr 1
      rw [← hafter]
      exact (List.takeWhile_append_dropWhile _ _).symm
    have hLnl : '\n' ∉ ("%files").toList ++ R.takeWhile (fun c => c ≠ '\n') := by
      intro hm
      rcases List.mem_append.mp hm with h | h
      · exact absurd h (by decide)
      · have := List.mem_takeWhile_imp h
        simp at this
    have hAfterEq : ((fsuf.drop 6).dropWhile (fun c => c ≠ '\n')).drop 1 = afterHdr := by
      rw [hRdrop, hafter]
      rfl
    rw [hAfterEq] at hin
    obtain ⟨hA, hc2⟩ := scan_shape chlogAnchor afterHdr true mid c2 hin
    have hokm := scan_okPre chlogAnchor afterHdr true mid c2 hin
    rcases List.append_eq_append_iff.mp (ht.symm.trans htf) with ⟨e, he1, he2⟩ | ⟨g, hg1, hg2⟩
    · exfalso
      have hoke : okPre true e := okPre_drop_left (he1 ▸ hokf)
      have := scan_none_imp filesAnchor csuf true hnf e fsuf he2 hoke
      simp [this] at hfile
    · have hokg : okPre true g := okPre_drop_left (hg1 ▸ hokp)
      rcases decomp_line hLnl (hfsufL.symm.trans hg2) hokg with
        ⟨rfl, hcs⟩ | ⟨g₂, hgL, hAg, hokg₂⟩
      · exfalso
        have := scan_none_imp filesAnchor csuf true hnf [] csuf rfl okPre_nil
        rw [hcs, ← hfsufL] at this
        simp [this] at hfile
      · have hmin1 := scan_first chlogAnchor afterHdr true mid c2 hin g₂ csuf hAg hokg₂
        have hlen1 : ¬ (g₂.length < mid.length) := fun hlt => by simp [hmin1 hlt] at hcc
        have hU : t = ((fpre ++ (("%files").toList ++ R.takeWhile (fun c => c ≠ '\n'))) ++
            '\n' :: mid) ++ c2 := by
          rw [htf, hfsufL, hA]
          simp [List.append_assoc]
        have hokU : okPre true ((fpre ++ (("%files").toList ++
            R.takeWhile (fun c => c ≠ '\n'))) ++ '\n' :: mid) := okPre_extend _ hokm
        have hmin2 := scan_first chlogAnchor t true pre csuf hc _ c2 hU hokU
        have hlen2 : ¬ (((fpre ++ (("%files").toList ++ R.takeWhile (fun c => c ≠ '\n'))) ++
            '\n' :: mid).length < pre.length) := fun hlt => by simp [hmin2 hlt] at hc2
        have hpreL : pre.length = fpre.length +
            (("%files").toList ++ R.takeWhile (fun c => c ≠ '\n')).length + 1 + g₂.length := by
          rw [hg1, hgL]
          simp only [List.length_append, List.length_cons]
          omega
        have hUL : (((fpre ++ (("%files").toList ++ R.takeWhile (fun c => c ≠ '\n'))) ++
            '\n' :: mid)).length = fpre.length +
            (("%files").toList ++ R.takeWhile (fun c => c ≠ '\n')).length + 1 + mid.length := by
          simp [List.length_append]
          omega
        have hmg : mid.length = g₂.length := by omega
        obtain ⟨_, rfl⟩ : mid = g₂ ∧ c2 = csuf := List.append_inj (hA.symm.trans hAg) hmg
        refine ⟨fpre ++ (("%files\n").toList ++ rp ++ ['\n']), ?_⟩
        simp [fix_files_section, hfb, List.append_assoc]

theorem claim_C9_witness :
    ∃ q, fix_files_section rosPref0 (("Name: x\n%files\nold\n%changelog\nlog\n").toList) =
      q ++ (("%changelog\nlog\n").toList) :=
  claim_C9_amended rosPref0 (("Name: x\n%files\nold\n%changelog\nlog\n").toList)
    (("Name: x\n%files\nold\n").toList) (("%changelog\nlog\n").toList)
    (by decide) (by decide)

/--
Claim C3, counterexample: `fix_name` and `fix_source0` use the global
substitution `pattern.sub`, not replace-first-match: on a document with two
`Name:` lines (resp. a `Source0:` and a `Source:` line) both lines are
rewritten to the canonical form; the later matching lines are not left
unchanged.
-/
theorem claim_C3_counterexample :
    fix_name rpmName0 (("Name: a\nName: b\n").toList) =
      (("Name:           ros-jazzy-foo-bar\nName:           ros-jazzy-foo-bar\n").toList) ∧
    fix_name rpmName0 (("Name: a\nName: b\n").toList) ≠
      (("Name:           ros-jazzy-foo-bar\nName: b\n").toList) ∧
    fix_source0 (("Source0: a\nSource: b\n").toList) =
      (("Source0: %{name}_%{version}.orig.tar.gz\nSource: %{name}_%{version}.orig.tar.gz\n").toList) ∧
    fix_source0 (("Source0: a\nSource: b\n").toList) ≠
      (("Source0: %{name}_%{version}.orig.tar.gz\nSource: b\n").toList) := by
  refine ⟨?_, ?_, ?_, ?_⟩ <;> decide

theorem hasNameMatch_head (r : List Char) : hasNameMatch (namePat ++ r) = true := by
  have hcons : namePat ++ r = 'N' :: ('a' :: 'm' :: 'e' :: ':' :: r) := rfl
  simp [hasNameMatch, scanSplit, hcons, scanGo, nameAnchor, namePat, List.isPrefixOf]

theorem hasSrcMatch_head0 (r : List Char) : hasSrcMatch (srcHdr0 ++ r) = true := by
  have hcons : srcHdr0 ++ r = 'S' :: ('o' :: 'u' :: 'r' :: 'c' :: 'e' :: '0' :: ':' :: r) := rfl
  simp [hasSrcMatch, scanSplit, hcons, scanGo, srcAnchor, srcHdr0, List.isPrefixOf]

/--
Claim C3, amended: `fix_name` and `fix_source0` rewrite every matching line
(global substitution semantics): on a document whose first two lines both
match the anchor (each with a newline-free value holding at least one
non-whitespace character) and whose remainder `s` is left fixed by the
substitution machine, both matching lines are rewritten to the canonical
form and the remainder is unchanged.
-/
theorem claim_C3_amended :
    (∀ (rpm a b s : List Char), '\n' ∉ a → (∃ c ∈ a, isWs c = false) →
      '\n' ∉ b → (∃ c ∈ b, isWs c = false) →
      subNameGo (canonNameLine rpm) (MSt.scan true) s = s →
      fix_name rpm (namePat ++ (a ++ '\n' :: (namePat ++ (b ++ '\n' :: s)))) =
        canonNameLine rpm ++ '\n' :: (canonNameLine rpm ++ '\n' :: s)) ∧
    (∀ (a b s : List Char), '\n' ∉ a → (∃ c ∈ a, isWs c = false) →
      '\n' ∉ b → (∃ c ∈ b, isWs c = false) →
      subSrcGo (MSt.scan true) s = s →
      fix_source0 (srcHdr0 ++ (a ++ '\n' :: (srcHdr ++ (b ++ '\n' :: s)))) =
        srcHdr0 ++ a.takeWhile isWs ++ srcTempl ++ '\n' ::
          (srcHdr ++ b.takeWhile isWs ++ srcTempl ++ '\n' :: s)) := by
  constructor
  · intro rpm a b s ha1 ha2 hb1 hb2 hs
    have hm := hasNameMatch_head (a ++ '\n' :: (namePat ++ (b ++ '\n' :: s)))
    unfold fix_name
    rw [if_pos hm, subName_line _ ha1 ha2, subName_line _ hb1 hb2, hs]
  · intro a b s ha1 ha2 hb1 hb2 hs
    have hm := hasSrcMatch_head0 (a ++ '\n' :: (srcHdr ++ (b ++ '\n' :: s)))
    unfold fix_source0
    rw [if_pos hm, subSrc_line0 ha1 ha2, subSrc_line1 hb1 hb2, hs]

theorem claim_C3_witness :
    fix_name rpmName0
        (namePat ++ ((" alpha").toList ++ '\n' ::
          (namePat ++ ((" beta").toList ++ '\n' :: ("rest\n").toList)))) =
      canonNameLine rpmName0 ++ '\n' :: (canonNameLine rpmName0 ++ '\n' :: ("rest\n").toList) ∧
    fix_source0
        (srcHdr0 ++ ((" alpha").toList ++ '\n' ::
          (srcHdr ++ ((" beta").toList ++ '\n' :: ("rest\n").toList)))) =
      srcHdr0 ++ ((" alpha").toList).takeWhile isWs ++ srcTempl ++ '\n' ::
        (srcHdr ++ ((" beta").toList).takeWhile isWs ++ srcTempl ++ '\n' :: ("rest\n").toList) :=
  ⟨claim_C3_amended.1 rpmName0 ((" alpha").toList) ((" beta").toList) (("rest\n").toList)
      (by decide) (by decide) (by decide) (by decide) (by decide),
    claim_C3_amended.2 ((" alpha").toList) ((" beta").toList) (("rest\n").toList)
      (by decide) (by decide) (by decide) (by decide) (by decide)⟩

theorem opt_none_of_isSome_false {α : Type} {o : Option α} (h : o.isSome = false) :
    o = none := by
  cases o
  · rfl
  · simp at h

theorem fixName_prepend (rpm : List Char) {t : List Char} (hn : hasNameMatch t = false) :
    fix_name rpm t = canonNameLine rpm ++ '\n' :: t := by
  simp [fix_name, hn]

theorem fixSrc_lic_some {t p0 suf : List Char} (hs : hasSrcMatch t = false)
    (hlic : scanSplit licAnchor t = some (p0, suf)) :
    fix_source0 t = p0 ++ licHdr ++ (suf.drop 8).takeWhile isWs ++
      ((suf.drop 8).dropWhile isWs).takeWhile (fun c => c ≠ '\n') ++
      '\n' :: srcNewLine ++ ((suf.drop 8).dropWhile isWs).dropWhile (fun c => c ≠ '\n') := by
  simp [fix_source0, hs, hlic]

theorem fixSrc_lic_none {t : List Char} (hs : hasSrcMatch t = false)
    (hlic : scanSplit licAnchor t = none) :
    fix_source0 t = pyRstrip t ++ '\n' :: srcNewLine ++ ['\n'] := by
  simp [fix_source0, hs, hlic]

/--
Claim C7, counterexample: on the empty document — which contains no line
matching the `Name:` anchor and none matching the `Source:`/`Source0:`
anchor — the two insertion fallbacks do not commute: applying `fix_name`
first yields a document whose trailing newline is then eaten by the
`rstrip()` of the end-of-document fallback of `fix_source0`, while the
other order keeps a blank line, so the two results differ by one newline.
-/
theorem claim_C7_counterexample :
    hasNameMatch ([] : List Char) = false ∧ hasSrcMatch ([] : List Char) = false ∧
    fix_source0 (fix_name rpmName0 []) ≠ fix_name rpmName0 (fix_source0 []) := by
  decide

/--
Claim C7, amended: `fix_name` and `fix_source0` commute on every document
that has no line matching the `Name:` anchor, no line matching the
`Source:`/`Source0:` anchor, and at least one non-whitespace character.
The last condition excludes the whitespace-only documents, on which the
`rstrip()` of the end-of-document fallback of `fix_source0` removes a
different amount of whitespace in the two orders.
-/
theorem claim_C7_amended (t : List Char)
    (hn : hasNameMatch t = false) (hs : hasSrcMatch t = false)
    (hw : ∃ c ∈ t, isWs c = false) :
    fix_source0 (fix_name rpmName0 t) = fix_name rpmName0 (fix_source0 t) := by
  have hnN : NoHit nameAnchor t :=
    (noHit_iff_scan _ _).mpr (opt_none_of_isSome_false hn)
  have hCnl : '\n' ∉ canonNameLine rpmName0 := by decide
  have hsA : hasSrcMatch (canonNameLine rpmName0 ++ '\n' :: t) = false := by
    have hglue : NoHit srcAnchor (canonNameLine rpmName0 ++ '\n' :: t) :=
      noHit_glue srcAnchor_nl srcAnchor_nil (noHit_noNl hCnl (by decide))
        ((noHit_iff_scan _ _).mpr (opt_none_of_isSome_false hs))
    unfold hasSrcMatch
    rw [(noHit_iff_scan _ _).mp hglue]
    rfl
  rw [fixName_prepend rpmName0 hn]
  cases hlic : scanSplit licAnchor t with
  | none =>
    have hlicA : scanSplit licAnchor (canonNameLine rpmName0 ++ '\n' :: t) = none := by
      have hglue : NoHit licAnchor (canonNameLine rpmName0 ++ '\n' :: t) :=
        noHit_glue licAnchor_nl licAnchor_nil (noHit_noNl hCnl (by decide))
          ((noHit_iff_scan _ _).mpr hlic)
      exact (noHit_iff_scan _ _).mp hglue
    have hstripA : pyRstrip (canonNameLine rpmName0 ++ '\n' :: t) =
        canonNameLine rpmName0 ++ '\n' :: pyRstrip t := by
      have h1 := pyRstrip_append_left (canonNameLine rpmName0 ++ ['\n']) hw
      simpa [List.append_assoc] using h1
    have hnB : hasNameMatch (pyRstrip t ++ '\n' :: srcNewLine ++ ['\n']) = false := by
      obtain ⟨ht, hwall⟩ := pyRstrip_decomp t
      have hR : NoHit nameAnchor (pyRstrip t) := by
        refine noHit_take_ws (fun v c w' hc => nameAnchor_ws hc v w') ?_ hwall
        rw [← ht]
        exact hnN
      have htail : NoHit nameAnchor (srcNewLine ++ ['\n']) :=
        noHit_glue nameAnchor_nl nameAnchor_nil
          (noHit_noNl (by decide) (by decide)) (noHit_nil nameAnchor_nil)
      have hglue : NoHit nameAnchor (pyRstrip t ++ '\n' :: (srcNewLine ++ ['\n'])) :=
        noHit_glue nameAnchor_nl nameAnchor_nil hR htail
      have hassoc0 : pyRstrip t ++ '\n' :: srcNewLine ++ ['\n'] =
          pyRstrip t ++ '\n' :: (srcNewLine ++ ['\n']) := by
        simp [List.append_assoc]
      unfold hasNameMatch
      rw [hassoc0, (noHit_iff_scan _ _).mp hglue]
      rfl
    rw [fixSrc_lic_none hsA hlicA, fixSrc_lic_none hs hlic, hstripA,
      fixName_prepend rpmName0 hnB]
    simp [List.append_assoc]
  | some ps =>
    obtain ⟨p0, suf⟩ := ps
    obtain ⟨ht0, hlicsuf⟩ := scan_shape licAnchor t true p0 suf hlic
    have hokp0 := scan_okPre licAnchor t true p0 suf hlic
    have hlicA : scanSplit licAnchor (canonNameLine rpmName0 ++ '\n' :: t) =
        some (canonNameLine rpmName0 ++ '\n' :: p0, suf) := by
      refine scan_eq_some_of licAnchor ?_ (okPre_extend _ hokp0) hlicsuf ?_
      · rw [ht0]
        simp [List.append_assoc]
      · intro u' v' hdec' hok' hlen'
        rcases decomp_line hCnl hdec' hok' with ⟨rfl, rfl⟩ | ⟨u₂, rfl, ht2, hok₂⟩
        · rw [licAnchor_nl]
          decide
        · have hlt : u₂.length < p0.length := by
            simp only [List.length_append, List.length_cons] at hlen'
            omega
          exact scan_first licAnchor t true p0 suf hlic u₂ v' ht2 hok₂ hlt
    have hsufL : suf = licHdr ++ suf.drop 8 := by
      obtain ⟨rr, hrr⟩ := List.isPrefixOf_iff_prefix.mp hlicsuf
      have h8 : (licHdr : List Char).length = 8 := by decide
      rw [← hrr, ← h8, List.drop_left]
    have hrest : ((suf.drop 8).dropWhile isWs).dropWhile (fun c => c ≠ '\n') = [] ∨
        ∃ r', ((suf.drop 8).dropWhile isWs).dropWhile (fun c => c ≠ '\n') = '\n' :: r' := by
      cases hdd : ((suf.drop 8).dropWhile isWs).dropWhile (fun c => c ≠ '\n') with
      | nil => exact Or.inl rfl
      | cons d r' =>
        have hd := dropWhile_head_false hdd
        have hdn : d = '\n' := by simpa using hd
        refine Or.inr ⟨r', ?_⟩
        rw [hdn]
    have hsuf8 : (suf.drop 8).takeWhile isWs ++
        (((suf.drop 8).dropWhile isWs).takeWhile (fun c => c ≠ '\n') ++
          ((suf.drop 8).dropWhile isWs).dropWhile (fun c => c ≠ '\n')) = suf.drop 8 := by
      rw [List.takeWhile_append_dropWhile, List.takeWhile_append_dropWhile]
    have htlay : t = (p0 ++ (licHdr ++ ((suf.drop 8).takeWhile isWs ++
        ((suf.drop 8).dropWhile isWs).takeWhile (fun c => c ≠ '\n')))) ++
        ((suf.drop 8).dropWhile isWs).dropWhile (fun c => c ≠ '\n') := by
      conv_lhs => rw [ht0, hsufL, ← hsuf8]
      simp [List.append_assoc]
    have hnB : hasNameMatch (p0 ++ licHdr ++ (suf.drop 8).takeWhile isWs ++
        ((suf.drop 8).dropWhile isWs).takeWhile (fun c => c ≠ '\n') ++
        '\n' :: srcNewLine ++ ((suf.drop 8).dropWhile isWs).dropWhile (fun c => c ≠ '\n')) =
        false := by
      have hA1 : NoHit nameAnchor (p0 ++ (licHdr ++ ((suf.drop 8).takeWhile isWs ++
          ((suf.drop 8).dropWhile isWs).takeWhile (fun c => c ≠ '\n')))) := by
        refine noHit_take nameAnchor_nl ?_ hrest
        rw [← htlay]
        exact hnN
      have htail : NoHit nameAnchor (srcNewLine ++
          ((suf.drop 8).dropWhile isWs).dropWhile (fun c => c ≠ '\n')) := by
        rcases hrest with hre | ⟨r', hre⟩
        · rw [hre, List.append_nil]
          exact noHit_noNl (by decide) (by decide)
        · rw [hre]
          refine noHit_glue nameAnchor_nl nameAnchor_nil
            (noHit_noNl (by decide) (by decide)) ?_
          refine noHit_suffix (u := (p0 ++ (licHdr ++ ((suf.drop 8).takeWhile isWs ++
            ((suf.drop 8).dropWhile isWs).takeWhile (fun c => c ≠ '\n')))) ++ ['\n'])
            ?_ (okPre_snoc_nl true _)
          rw [List.append_assoc]
          simp only [List.singleton_append]
          rw [← hre, ← htlay]
          exact hnN
      have hglue : NoHit nameAnchor ((p0 ++ (licHdr ++ ((suf.drop 8).takeWhile isWs ++
          ((suf.drop 8).dropWhile isWs).takeWhile (fun c => c ≠ '\n')))) ++
          '\n' :: (srcNewLine ++
            ((suf.drop 8).dropWhile isWs).dropWhile (fun c => c ≠ '\n'))) :=
        noHit_glue nameAnchor_nl nameAnchor_nil hA1 htail
      have hassoc : p0 ++ licHdr ++ (suf.drop 8).takeWhile isWs ++
          ((suf.drop 8).dropWhile isWs).takeWhile (fun c => c ≠ '\n') ++
          '\n' :: srcNewLine ++ ((suf.drop 8).dropWhile isWs).dropWhile (fun c => c ≠ '\n') =
          (p0 ++ (licHdr ++ ((suf.drop 8).takeWhile isWs ++
            ((suf.drop 8).dropWhile isWs).takeWhile (fun c => c ≠ '\n')))) ++
            '\n' :: (srcNewLine ++
              ((suf.drop 8).dropWhile isWs).dropWhile (fun c => c ≠ '\n')) := by
        simp [List.append_assoc]
      unfold hasNameMatch
      rw [hassoc, (noHit_iff_scan _ _).mp hglue]
      rfl
    rw [fixSrc_lic_some hsA hlicA, fixSrc_lic_some hs hlic, fixName_prepend rpmName0 hnB]
    simp [List.append_assoc]

/--
Claim C7, witness: the amended commutation theorem applies to the concrete
document consisting of the single line `License: MIT`.
-/
theorem claim_C7_witness :
    fix_source0 (fix_name rpmName0 (("License: MIT\n").toList)) =
      fix_name rpmName0 (fix_source0 (("License: MIT\n").toList)) :=
  claim_C7_amended (("License: MIT\n").toList) (by decide) (by decide) (by decide)

theorem claim_C10_witness :
    classifyLine (("pkg src/pkg extra junk").toList) =
      LineResult.entry ((splitWs (pyStrip (("pkg src/pkg extra junk").toList))).getD 0 [])
        ((splitWs (pyStrip (("pkg src/pkg extra junk").toList))).getD 1 []) :=
  claim_C10_loader.1 (("pkg src/pkg extra junk").toList) (by decide) (by decide)

end RosPorting
